import Mathlib

/-!
Shallow embedding of the hash table in `src/chapter-01/00_hash_tables.py`.

Python objects are embedded at the value level:

* a `HashNode` together with the nodes reachable from its `next_node`
  links is embedded as a nonempty `List` of `HashEntry` records (the head
  entry is the node itself, the tail list is its `next_node` chain);
* a bucket slot (`None` or a head node) is a possibly empty such list,
  `[]` standing for Python `None`;
* the built-in `hash` is a parameter `hf : K → Int` (Python hash codes
  may be negative);
* `HashTable.delete` is embedded as a function into `DeleteOutcome`,
  whose `diverges` constructor records that the Python `while` loop runs
  forever: the loop body of `delete` never reassigns `previous_node` or
  `next_node`, so once the loop is entered with a non-matching
  `next_node` the same state recurs on every iteration.

This value-level embedding agrees with Python's object semantics on every
state in which no node object is shared between two chains.  Sharing first
arises inside `_rebuild_table` (nodes are re-added while still carrying
their old `next_node`), and the embedding reproduces the table contents
that the rebuild itself produces; the positive theorems below are stated
for tables in that faithful range.
-/

/-- Value-level image of a Python `HashNode` minus its `next_node` link:
the `key`, `value` and the `hash_code` computed once at construction. -/
structure HashEntry (K V : Type) where
  key : K
  value : V
  hash_code : Int
deriving DecidableEq, Repr

/-- A bucket chain.  `[]` embeds Python `None`; `e :: rest` embeds the node
with entry `e` whose `next_node` chain is `rest`. -/
abbrev HashChain (K V : Type) := List (HashEntry K V)

/-- Embedding of `HashNode.add` (lines 62-70).  `self` is the chain headed
at the receiver; the inserted node is the entry `n` together with the chain
`ntail` hanging off its `next_node` (Python appends the node object with
whatever `next_node` it carries, so an appended node brings its tail along).
Returns the updated chain and the 0/1 growth delta.  The `[]` equation is
never reached from table code (a bucket's `add` is only called on a node). -/
def HashNode.add {K V : Type} [DecidableEq K] :
    HashChain K V → HashEntry K V → HashChain K V → HashChain K V × Nat
  | [], n, ntail => (n :: ntail, 1)
  | e :: rest, n, ntail =>
    if e.key = n.key then
      ({ e with value := n.value } :: rest, 0)
    else
      match rest with
      | [] => (e :: n :: ntail, 1)
      | r :: rs =>
        let p := HashNode.add (r :: rs) n ntail
        (e :: p.1, p.2)

/-- Embedding of `HashNodeIterator` (lines 15-32): the nodes produced by
iterating a chain, each as its head entry paired with its `next_node`
chain. -/
def HashNode.nodes {K V : Type} :
    HashChain K V → List (HashEntry K V × HashChain K V)
  | [] => []
  | e :: rest => (e, rest) :: HashNode.nodes rest

/-- Embedding of the Python loop in `HashTable.get` (lines 148-151): walk
the chain comparing by key equality and return the first match's value. -/
def HashNode.find {K V : Type} [DecidableEq K] :
    HashChain K V → K → Option V
  | [], _ => none
  | e :: rest, k => if e.key = k then some e.value else HashNode.find rest k

/-- Embedding of the `HashTable` state (lines 95-98): `table` is `_table`,
`size` is `_size`, `count` is `_number_of_nodes` (a Python `int`, hence
`Int`). -/
structure HashTable (K V : Type) where
  table : List (HashChain K V)
  size : Nat
  count : Int
deriving DecidableEq, Repr

/-- Embedding of `HashTable.__init__` (lines 95-98). -/
def HashTable.init (K V : Type) (initial_size : Nat) : HashTable K V :=
  ⟨List.replicate initial_size [], initial_size, 0⟩

/-- Embedding of `HashTable._get_table_index` (lines 115-116):
`abs(hash_code) % self._size`. -/
def HashTable.getTableIndex {K V : Type} (t : HashTable K V)
    (hash_code : Int) : Nat :=
  hash_code.natAbs % t.size

/-- Embedding of `HashTable._is_too_full` (lines 118-122).  The float
comparison `1.0 * count / size >= 0.7` is embedded as the exact rational
comparison `count / size ≥ 7/10`; for every table size reachable here the
IEEE-754 evaluation agrees with the exact one (in particular `7/10 >= 0.7`
is true in floats, as the source's own tests at lines 345-355 exercise). -/
def HashTable.isTooFull {K V : Type} (t : HashTable K V) : Bool :=
  decide (10 * t.count ≥ 7 * (t.size : Int))

/-- Embedding of `HashTable._add` (lines 107-113).  The inserted node is
the entry `n` with the chain `ntail` on its `next_node`; when the bucket is
empty the whole node (tail included) becomes the bucket slot, otherwise the
head node's `add` is delegated to.  Returns the growth delta and the
updated table. -/
def HashTable.add {K V : Type} [DecidableEq K] (t : HashTable K V)
    (n : HashEntry K V) (ntail : HashChain K V) : Nat × HashTable K V :=
  let idx := t.getTableIndex n.hash_code
  match t.table.getD idx [] with
  | [] => (1, { t with table := t.table.set idx (n :: ntail) })
  | e :: rest =>
    let p := HashNode.add (e :: rest) n ntail
    (p.2, { t with table := t.table.set idx p.1 })

/-- Embedding of `HashTable.__iter__` (lines 100-105): all nodes, by
ascending bucket index, within a bucket by chain order; empty buckets are
skipped. -/
def HashTable.iterNodes {K V : Type} (t : HashTable K V) :
    List (HashEntry K V × HashChain K V) :=
  t.table.flatMap HashNode.nodes

/-- Embedding of `HashTable._rebuild_table` (lines 124-129): a fresh table
of double size, every node of the full-table iteration re-added — each node
still carrying its old `next_node` chain, exactly as the source re-adds the
same node objects — then `_table` and `_size` (not `_number_of_nodes`)
replaced. -/
def HashTable.rebuildTable {K V : Type} [DecidableEq K]
    (t : HashTable K V) : HashTable K V :=
  let start := HashTable.init K V (t.size * 2)
  let new_ht := t.iterNodes.foldl (fun acc n => (HashTable.add acc n.1 n.2).2) start
  { t with table := new_ht.table, size := new_ht.size }

/-- Embedding of `HashTable.set` (lines 131-141): build a node with hash
computed once, `_add` it, grow `count` by the delta, then rebuild if the
table is too full. -/
def HashTable.set {K V : Type} [DecidableEq K] (hf : K → Int)
    (t : HashTable K V) (key : K) (value : V) : HashTable K V :=
  let node : HashEntry K V := ⟨key, value, hf key⟩
  let p := t.add node []
  let t2 : HashTable K V := { p.2 with count := p.2.count + (p.1 : Int) }
  if t2.isTooFull then t2.rebuildTable else t2

/-- Embedding of `HashTable.get` (lines 143-153). -/
def HashTable.get {K V : Type} [DecidableEq K] (hf : K → Int)
    (t : HashTable K V) (key : K) (default_value : V) : V :=
  let idx := t.getTableIndex (hf key)
  (HashNode.find (t.table.getD idx []) key).getD default_value

/-- Possible behaviours of `HashTable.delete`: it either returns a Python
value (`none` embeds the `return None` sentinel, `some v` a stored value)
leaving the table in a new state, or it diverges. -/
inductive DeleteOutcome (K V : Type) where
  | diverges : DeleteOutcome K V
  | finished : Option V → HashTable K V → DeleteOutcome K V
deriving DecidableEq, Repr

/-- Value a finished `delete` hands back to its caller (`none` when the
outcome is divergence, in which case no value is ever returned). -/
def DeleteOutcome.ret {K V : Type} : DeleteOutcome K V → Option V
  | .diverges => none
  | .finished r _ => r

/-- Embedding of `HashTable.delete` (lines 155-172).  The `while next_node:`
loop at lines 166-170 never reassigns `previous_node` or `next_node`, so it
is equivalent to a single test: if the bucket's second node matches, it is
unlinked and its value returned; if there is no second node the loop is
skipped and `None` returned; otherwise the loop re-examines the same
non-matching node forever — `diverges`. -/
def HashTable.delete {K V : Type} [DecidableEq K] (hf : K → Int)
    (t : HashTable K V) (key : K) : DeleteOutcome K V :=
  let idx := t.getTableIndex (hf key)
  match t.table.getD idx [] with
  | [] => DeleteOutcome.finished none t
  | p :: rest =>
    if p.key = key then
      DeleteOutcome.finished (some p.value)
        { t with table := t.table.set idx rest, count := t.count - 1 }
    else
      match rest with
      | [] => DeleteOutcome.finished none t
      | n :: rest2 =>
        if n.key = key then
          DeleteOutcome.finished (some n.value)
            { t with table := t.table.set idx (p :: rest2), count := t.count - 1 }
        else DeleteOutcome.diverges

/-- Folding `set` over a list of key/value pairs: a sequence of public
`set` calls. -/
def insertList {K V : Type} [DecidableEq K] (hf : K → Int)
    (t : HashTable K V) (kvs : List (K × V)) : HashTable K V :=
  kvs.foldl (fun t kv => HashTable.set hf t kv.1 kv.2) t

/-! ## Concrete tables used to exercise the code

Integer keys with `hf = id` mirror Python, where small `int`s hash to
themselves (the source's own tests use such keys and a `FixedHash` wrapper
with the same effect). -/

/-- A size-10 table holding keys 0, 10, 20 — all in bucket 0, so the chain
is `0 → 10 → 20` (three public `set` calls; the load factor stays at 0.3,
so no resize occurs). -/
def exampleDeepChain : HashTable Int Nat :=
  insertList id (HashTable.init Int Nat 10) [(0, 100), (10, 110), (20, 120)]

/-- A size-10 table holding keys 0 and 10 — both in bucket 0, a two-node
chain. -/
def exampleTwoChain : HashTable Int Nat :=
  insertList id (HashTable.init Int Nat 10) [(0, 100), (10, 110)]

/-- A size-5 table holding keys 1 and 6 — both in bucket 1, a two-node
chain. -/
def exampleShortTable : HashTable Int Nat :=
  insertList id (HashTable.init Int Nat 5) [(1, 11), (6, 12)]

/-- A size-3 table given keys 0, 3 (both bucket 0) and then 1: the third
`set` drives the load factor to 1 ≥ 0.7, so `set` itself performs the
rebuild to size 6, in which the old chain `0 → 3` splits across buckets 0
and 3. -/
def exampleSplitTable : HashTable Int Nat :=
  insertList id (HashTable.init Int Nat 3) [(0, 100), (3, 101), (1, 102)]

/-- A size-10 table over Python-`None`-able values (`Option Nat`), holding
key 5 with stored value `none` (Python `None`). -/
def exampleNoneValueTable : HashTable Int (Option Nat) :=
  HashTable.set id (HashTable.init Int (Option Nat) 10) 5 none

/-! ## Claims settled on concrete inputs -/

/-- C1: the claim states that `delete(k)` on a present key returns the
stored value and unlinks the node regardless of its position in the chain.
The code contradicts this: with chain `0 → 10 → 20` in one bucket, key 20
is present (`get` returns its value 120), yet `delete 20` never returns —
the `while` loop of `delete` never advances its pointers, so a match at
depth three is never reached.  The spec's trailing-pointer walk is the
intent; the loop body missing the pointer advance is the slip. -/
theorem delete_diverges_on_third_node :
    HashTable.get id exampleDeepChain 20 999 = 120 ∧
    HashTable.delete id exampleDeepChain 20 = DeleteOutcome.diverges := by
  decide

/-- C2: the claim states that `delete(k)` on an absent key returns the
"not found" sentinel without mutating anything.  The code contradicts this
whenever the key's bucket holds a chain of two or more nodes: with chain
`0 → 10` in bucket 0, key 30 is absent (`get` falls back to the default),
yet `delete 30` never returns the sentinel — the non-advancing `while`
loop re-examines node 10 forever. -/
theorem delete_diverges_on_absent_key_in_chain :
    HashTable.get id exampleTwoChain 30 999 = 999 ∧
    HashTable.delete id exampleTwoChain 30 = DeleteOutcome.diverges := by
  decide

/-- C3: the claim states that every public operation terminates, in
particular `delete` on a bucket with a chain of two or more nodes.  The
code contradicts this: in a size-5 table with chain `1 → 6` in bucket 1,
`delete 11` (absent, bucket 1) runs the `while` loop forever because the
loop body never reassigns `previous_node` or `next_node`. -/
theorem delete_fails_to_terminate :
    HashTable.delete id exampleShortTable 11 = DeleteOutcome.diverges := by
  decide

/-- C4: the claim states that each node is reachable through exactly one
bucket's chain and that the rebuild inside `set` preserves this.  The code
contradicts it: `_rebuild_table` re-adds each node while it still carries
its old `next_node`, so after the resize triggered by the third `set` the
node for key 3 hangs both off bucket 0 (as the stale successor of node 0)
and in bucket 3 (its own new bucket) — one node, two chains. -/
theorem rebuild_places_node_in_two_buckets :
    exampleSplitTable.size = 6 ∧
    (exampleSplitTable.table.getD 0 []).map HashEntry.key = [0, 3] ∧
    (exampleSplitTable.table.getD 3 []).map HashEntry.key = [3] := by
  decide

/-- C9: the claim states that full-table iteration produces every stored
node exactly once in every reachable state, including after resizes.  The
code contradicts it: after the resize performed while inserting keys
0, 3, 1 into a size-3 table, iteration yields the node for key 3 twice
(once through bucket 0's stale chain, once through bucket 3), four nodes
produced for a table whose entry count is 3. -/
theorem iteration_repeats_node_after_rebuild :
    exampleSplitTable.iterNodes.map (fun p => p.1.key) = [0, 3, 1, 3] ∧
    exampleSplitTable.count = 3 := by
  decide

/-- C10: `delete` communicates "not found" by returning `None`, the same
value a caller may store.  With key 5 stored with value `None`, `delete 5`
returns the stored `None` (model: `some none`, i.e. Python hands back the
object `None`) and on the empty table `delete 5` returns the sentinel
`None` (model: `none`): after the `Option`-join that renders what the
Python caller actually receives, the two returns are the identical value,
and `get` with its default of `None` is ambiguous in the same way. -/
theorem delete_sentinel_equals_stored_none :
    (HashTable.delete id exampleNoneValueTable 5).ret = some none ∧
    (HashTable.delete id (HashTable.init Int (Option Nat) 10) 5).ret = none ∧
    ((HashTable.delete id exampleNoneValueTable 5).ret).join
      = ((HashTable.delete id (HashTable.init Int (Option Nat) 10) 5).ret).join ∧
    HashTable.get id exampleNoneValueTable 5 none
      = HashTable.get id (HashTable.init Int (Option Nat) 10) 5 none := by
  decide

/-! ## General lemmas about the operations -/

/-- The growth delta signalled by a chain insertion is 0 or 1. -/
theorem HashNode.add_snd_le_one {K V : Type} [DecidableEq K]
    (c : HashChain K V) (n : HashEntry K V) (ntail : HashChain K V) :
    (HashNode.add c n ntail).2 ≤ 1 := by
  induction c with
  | nil => simp [HashNode.add]
  | cons e rest ih =>
    cases rest with
    | nil =>
      simp only [HashNode.add]
      split <;> simp
    | cons r rs =>
      simp only [HashNode.add]
      split
      · simp
      · simpa using ih

/-- `_add` never changes `_size`. -/
theorem HashTable.add_size {K V : Type} [DecidableEq K] (t : HashTable K V)
    (n : HashEntry K V) (ntail : HashChain K V) :
    ((t.add n ntail).2).size = t.size := by
  simp only [HashTable.add]
  split <;> rfl

/-- `_add` never changes `_number_of_nodes`. -/
theorem HashTable.add_count {K V : Type} [DecidableEq K] (t : HashTable K V)
    (n : HashEntry K V) (ntail : HashChain K V) :
    ((t.add n ntail).2).count = t.count := by
  simp only [HashTable.add]
  split <;> rfl

/-- Folding `_add` over any node list keeps `_size` fixed. -/
theorem foldl_add_size {K V : Type} [DecidableEq K]
    (l : List (HashEntry K V × HashChain K V)) (acc : HashTable K V) :
    (l.foldl (fun acc n => (HashTable.add acc n.1 n.2).2) acc).size = acc.size := by
  induction l generalizing acc with
  | nil => rfl
  | cons n l ih => rw [List.foldl_cons, ih, HashTable.add_size]

/-- A rebuild doubles `_size`. -/
theorem HashTable.rebuildTable_size {K V : Type} [DecidableEq K]
    (t : HashTable K V) : (t.rebuildTable).size = t.size * 2 := by
  simp only [HashTable.rebuildTable]
  rw [foldl_add_size]
  rfl

/-- A rebuild copies only `_table` and `_size`; `_number_of_nodes` is the
original table's. -/
theorem HashTable.rebuildTable_count {K V : Type} [DecidableEq K]
    (t : HashTable K V) : (t.rebuildTable).count = t.count := rfl

/-- The new count after `set` is the old count plus the delta of its
`_add`. -/
theorem HashTable.set_count {K V : Type} [DecidableEq K] (hf : K → Int)
    (t : HashTable K V) (key : K) (value : V) :
    (HashTable.set hf t key value).count
      = t.count + ((t.add ⟨key, value, hf key⟩ []).1 : Int) := by
  simp only [HashTable.set]
  split
  · rw [HashTable.rebuildTable_count, HashTable.add_count]
  · simp only [HashTable.add_count]

/-- The table-level growth delta of `_add` is 0 or 1. -/
theorem HashTable.add_fst_le_one {K V : Type} [DecidableEq K] (t : HashTable K V)
    (n : HashEntry K V) (ntail : HashChain K V) :
    (t.add n ntail).1 ≤ 1 := by
  simp only [HashTable.add]
  split
  · simp
  · exact HashNode.add_snd_le_one _ _ _

/-- Whenever `delete` returns, the bucket count and the bucket array length
are unchanged: `delete` never resizes. -/
theorem HashTable.delete_finished_size {K V : Type} [DecidableEq K] (hf : K → Int)
    (t : HashTable K V) (key : K) (r : Option V) (t2 : HashTable K V)
    (h : t.delete hf key = DeleteOutcome.finished r t2) :
    t2.size = t.size ∧ t2.table.length = t.table.length := by
  simp only [HashTable.delete] at h
  split at h
  · cases h
    exact ⟨rfl, rfl⟩
  · split at h
    · cases h
      exact ⟨rfl, by simp⟩
    · split at h
      · cases h
        exact ⟨rfl, rfl⟩
      · split at h
        · cases h
          exact ⟨rfl, by simp⟩
        · cases h

/-- C5: after every completed `set`, `count / size < 0.7` holds (given that
it held before the call, `size ≥ 1`); the resize is performed inside `set`
and never by `delete`, which leaves `size` and the bucket array length
unchanged whenever it returns (`get` does not even produce a table, being
embedded as a pure value-reading function). -/
theorem load_factor_restored_by_set {K V : Type} [DecidableEq K] (hf : K → Int)
    (t : HashTable K V) (key : K) (value : V)
    (hs : 1 ≤ t.size) (hlt : 10 * t.count < 7 * (t.size : Int)) :
    10 * (HashTable.set hf t key value).count
        < 7 * ((HashTable.set hf t key value).size : Int) ∧
    (∀ (key2 : K) (r : Option V) (t2 : HashTable K V),
      HashTable.delete hf t key2 = DeleteOutcome.finished r t2 →
        t2.size = t.size ∧ t2.table.length = t.table.length) := by
  refine ⟨?_, fun key2 r t2 h => HashTable.delete_finished_size hf t key2 r t2 h⟩
  have hd : (t.add ⟨key, value, hf key⟩ []).1 ≤ 1 :=
    HashTable.add_fst_le_one t _ _
  simp only [HashTable.set]
  split
  next htf =>
    rw [HashTable.rebuildTable_count, HashTable.rebuildTable_size]
    dsimp only
    rw [HashTable.add_count, HashTable.add_size]
    push_cast
    rcases Nat.lt_or_ge t.size 2 with h2 | h2 <;> omega
  next htf =>
    simp only [HashTable.isTooFull, decide_eq_true_eq, not_le] at htf
    dsimp only at htf ⊢
    rw [HashTable.add_count] at htf
    rw [HashTable.add_count, HashTable.add_size]
    rw [HashTable.add_size] at htf
    exact htf

/-- C5 witness: a concrete table below the threshold keeps the invariant
after a `set` and a returning `delete` keeps the size. -/
theorem load_factor_restored_by_set_witness :
    10 * (HashTable.set id exampleTwoChain 7 77).count
        < 7 * ((HashTable.set id exampleTwoChain 7 77).size : Int) ∧
    (∀ (key2 : Int) (r : Option Nat) (t2 : HashTable Int Nat),
      HashTable.delete id exampleTwoChain key2 = DeleteOutcome.finished r t2 →
        t2.size = exampleTwoChain.size ∧
        t2.table.length = exampleTwoChain.table.length) :=
  load_factor_restored_by_set id exampleTwoChain 7 77 (by decide) (by decide)

/-! ## Keys stored in a table -/

/-- All keys occurring anywhere in the bucket array. -/
def HashTable.allKeys {K V : Type} (t : HashTable K V) : List K :=
  t.table.flatMap (fun c => c.map HashEntry.key)


/-- Keys of the chain produced by `HashNode.add`: unchanged when the
inserted key was already present (the value is overwritten in place),
otherwise the inserted node and its tail are appended at the true tail. -/
theorem HashNode.add_fst_keys {K V : Type} [DecidableEq K]
    (c : HashChain K V) (n : HashEntry K V) (ntail : HashChain K V) :
    ((HashNode.add c n ntail).1).map HashEntry.key =
      if n.key ∈ c.map HashEntry.key then c.map HashEntry.key
      else c.map HashEntry.key ++ n.key :: ntail.map HashEntry.key := by
  induction c with
  | nil => simp [HashNode.add]
  | cons e rest ih =>
    cases rest with
    | nil =>
      simp only [HashNode.add]
      split
      next h => simp [h.symm]
      next h =>
        have : ¬n.key = e.key := fun hc => h hc.symm
        simp [this]
    | cons r rs =>
      simp only [HashNode.add]
      split
      next h => simp [h.symm]
      next h =>
        have hne : ¬n.key = e.key := fun hc => h hc.symm
        simp only [List.map_cons] at ih ⊢
        rw [ih]
        by_cases hmem : n.key ∈ r.key :: List.map HashEntry.key rs
        · rw [if_pos hmem, if_pos (List.mem_cons_of_mem _ hmem)]
        · have hmem2 : n.key ∉ e.key :: r.key :: List.map HashEntry.key rs := by
            intro hc
            rcases List.mem_cons.1 hc with h1 | h1
            · exact hne h1
            · exact hmem h1
          rw [if_neg hmem, if_neg hmem2]
          simp

/-- When the inserted key is absent from the chain, `HashNode.add` appends
the node (with its tail) at the true tail and signals growth 1. -/
theorem HashNode.add_of_not_mem {K V : Type} [DecidableEq K]
    (c : HashChain K V) (n : HashEntry K V) (ntail : HashChain K V)
    (h : n.key ∉ c.map HashEntry.key) :
    HashNode.add c n ntail = (c ++ n :: ntail, 1) := by
  induction c with
  | nil => simp [HashNode.add]
  | cons e rest ih =>
    simp only [List.map_cons, List.mem_cons, not_or] at h
    have hne : ¬e.key = n.key := fun hc => h.1 hc.symm
    cases rest with
    | nil => simp [HashNode.add, hne]
    | cons r rs =>
      simp only [HashNode.add, hne, if_false]
      rw [ih h.2]
      rfl

/-- When the inserted key is present, `HashNode.add` signals no growth. -/
theorem HashNode.add_of_mem_snd {K V : Type} [DecidableEq K]
    (c : HashChain K V) (n : HashEntry K V) (ntail : HashChain K V)
    (h : n.key ∈ c.map HashEntry.key) :
    (HashNode.add c n ntail).2 = 0 := by
  induction c with
  | nil => simp at h
  | cons e rest ih =>
    simp only [List.map_cons, List.mem_cons] at h
    cases rest with
    | nil =>
      simp only [List.map_nil, List.not_mem_nil, or_false] at h
      simp [HashNode.add, h.symm]
    | cons r rs =>
      by_cases he : e.key = n.key
      · simp [HashNode.add, he]
      · have : n.key ∈ (r :: rs).map HashEntry.key := by
          rcases h with h | h
          · exact absurd h.symm he
          · simpa using h
        simp only [HashNode.add, he, if_false]
        exact ih this

/-- After inserting node `n` into a chain, looking the chain up at `n.key`
finds `n.value`: an overwrite hits the first (hence found-first) match, an
append is the first and only match for a fresh key. -/
theorem HashNode.find_add {K V : Type} [DecidableEq K]
    (c : HashChain K V) (n : HashEntry K V) (ntail : HashChain K V) :
    HashNode.find ((HashNode.add c n ntail).1) n.key = some n.value := by
  induction c with
  | nil => simp [HashNode.add, HashNode.find]
  | cons e rest ih =>
    cases rest with
    | nil =>
      by_cases he : e.key = n.key
      · simp [HashNode.add, he, HashNode.find]
      · simp [HashNode.add, he, HashNode.find]
    | cons r rs =>
      by_cases he : e.key = n.key
      · simp [HashNode.add, he, HashNode.find]
      · simp only [HashNode.add, he, if_false]
        simpa [HashNode.find, he] using ih

/-- Membership in the flatMap of a list with one slot replaced. -/
theorem mem_flatMap_set {α β : Type} (l : List α) (i : Nat) (y : α)
    (f : α → List β) (x : β) (hx : x ∈ (l.set i y).flatMap f) :
    x ∈ f y ∨ x ∈ l.flatMap f := by
  induction l generalizing i with
  | nil => simp at hx
  | cons a l ih =>
    cases i with
    | zero =>
      rw [List.set_cons_zero, List.flatMap_cons, List.mem_append] at hx
      rcases hx with hx | hx
      · exact Or.inl hx
      · exact Or.inr (by rw [List.flatMap_cons, List.mem_append]; exact Or.inr hx)
    | succ i =>
      rw [List.set_cons_succ, List.flatMap_cons, List.mem_append] at hx
      rcases hx with hx | hx
      · exact Or.inr (by rw [List.flatMap_cons, List.mem_append]; exact Or.inl hx)
      · rcases ih i hx with h | h
        · exact Or.inl h
        · exact Or.inr (by rw [List.flatMap_cons, List.mem_append]; exact Or.inr h)

/-- A key of a chain read with `getD` from the bucket array is a key of the
table. -/
theorem mem_getD_allKeys {K V : Type} (t : HashTable K V) (i : Nat)
    (e : HashEntry K V) (he : e ∈ t.table.getD i []) :
    e.key ∈ t.allKeys := by
  rcases Nat.lt_or_ge i t.table.length with hi | hi
  · rw [List.getD_eq_getElem _ _ hi] at he
    exact List.mem_flatMap.2 ⟨_, List.getElem_mem hi, List.mem_map_of_mem _ he⟩
  · rw [List.getD_eq_default _ _ hi] at he
    simp at he

/-- Keys after `_add` come from the inserted node or the old table. -/
theorem HashTable.add_allKeys {K V : Type} [DecidableEq K] (t : HashTable K V)
    (n : HashEntry K V) (ntail : HashChain K V) :
    ∀ x ∈ ((t.add n ntail).2).allKeys,
      x = n.key ∨ x ∈ ntail.map HashEntry.key ∨ x ∈ t.allKeys := by
  intro x hx
  simp only [HashTable.add] at hx
  split at hx
  next hb =>
    rcases mem_flatMap_set _ _ _ _ _ hx with h | h
    · simp only [List.map_cons, List.mem_cons] at h
      tauto
    · exact Or.inr (Or.inr h)
  next e rest hb =>
    rcases mem_flatMap_set _ _ _ _ _ hx with h | h
    · rw [HashNode.add_fst_keys] at h
      have hold : ∀ y, y ∈ (e :: rest).map HashEntry.key → y ∈ t.allKeys := by
        intro y hy
        simp only [List.mem_map] at hy
        rcases hy with ⟨e2, he2, rfl⟩
        exact mem_getD_allKeys t _ e2 (hb ▸ he2)
      split at h
      · exact Or.inr (Or.inr (hold x h))
      · rw [List.mem_append, List.mem_cons] at h
        rcases h with h | h | h
        · exact Or.inr (Or.inr (hold x h))
        · exact Or.inl h
        · exact Or.inr (Or.inl h)
    · exact Or.inr (Or.inr h)

/-- A node produced by chain iteration is an entry of the chain, and its
attached tail consists of entries of the chain. -/
theorem HashNode.nodes_mem {K V : Type} (ch : HashChain K V)
    (p : HashEntry K V × HashChain K V) (hp : p ∈ HashNode.nodes ch) :
    p.1 ∈ ch ∧ ∀ x ∈ p.2, x ∈ ch := by
  induction ch with
  | nil => simp [HashNode.nodes] at hp
  | cons e rest ih =>
    simp only [HashNode.nodes, List.mem_cons] at hp
    rcases hp with hp | hp
    · subst hp
      exact ⟨List.mem_cons_self _ _, fun x hx => List.mem_cons_of_mem _ hx⟩
    · rcases ih hp with ⟨h1, h2⟩
      exact ⟨List.mem_cons_of_mem _ h1, fun x hx => List.mem_cons_of_mem _ (h2 x hx)⟩

/-- A node produced by full-table iteration carries only keys of the
table. -/
theorem mem_iterNodes_keys {K V : Type} (t : HashTable K V)
    (p : HashEntry K V × HashChain K V) (hp : p ∈ t.iterNodes) :
    p.1.key ∈ t.allKeys ∧ ∀ x ∈ p.2.map HashEntry.key, x ∈ t.allKeys := by
  rcases List.mem_flatMap.1 hp with ⟨ch, hch, hmem⟩
  rcases HashNode.nodes_mem ch p hmem with ⟨h1, h2⟩
  constructor
  · exact List.mem_flatMap.2 ⟨ch, hch, List.mem_map_of_mem _ h1⟩
  · intro x hx
    rcases List.mem_map.1 hx with ⟨e2, he2, rfl⟩
    exact List.mem_flatMap.2 ⟨ch, hch, List.mem_map_of_mem _ (h2 e2 he2)⟩

/-- Folding `_add` over nodes whose keys lie in `S` keeps all keys in `S`. -/
theorem foldl_add_allKeys {K V : Type} [DecidableEq K]
    (l : List (HashEntry K V × HashChain K V)) (acc : HashTable K V) (S : List K)
    (hl : ∀ p ∈ l, p.1.key ∈ S ∧ ∀ x ∈ p.2.map HashEntry.key, x ∈ S)
    (hacc : ∀ x ∈ acc.allKeys, x ∈ S) :
    ∀ x ∈ (l.foldl (fun acc n => (HashTable.add acc n.1 n.2).2) acc).allKeys, x ∈ S := by
  induction l generalizing acc with
  | nil => exact hacc
  | cons p l ih =>
    intro x hx
    refine ih _ (fun q hq => hl q (List.mem_cons_of_mem _ hq)) ?_ x hx
    intro y hy
    rcases HashTable.add_allKeys acc p.1 p.2 y hy with h | h | h
    · exact h ▸ (hl p (List.mem_cons_self _ _)).1
    · exact (hl p (List.mem_cons_self _ _)).2 y h
    · exact hacc y h

/-- A fresh table stores no keys. -/
theorem HashTable.init_allKeys {K V : Type} (n : Nat) :
    (HashTable.init K V n).allKeys = [] := by
  induction n with
  | zero => rfl
  | succ n ih =>
    simp only [HashTable.init, HashTable.allKeys, List.replicate_succ,
      List.flatMap_cons, List.map_nil, List.nil_append] at ih ⊢
    exact ih

/-- A rebuild introduces no new keys. -/
theorem HashTable.rebuildTable_allKeys {K V : Type} [DecidableEq K]
    (t : HashTable K V) :
    ∀ x ∈ (t.rebuildTable).allKeys, x ∈ t.allKeys := by
  intro x hx
  refine foldl_add_allKeys t.iterNodes (HashTable.init K V (t.size * 2)) t.allKeys
    (fun p hp => mem_iterNodes_keys t p hp) ?_ x hx
  rw [HashTable.init_allKeys]
  intro y hy
  simp at hy

/-- Keys after a `set` are the new key or keys of the old table. -/
theorem HashTable.set_allKeys {K V : Type} [DecidableEq K] (hf : K → Int)
    (t : HashTable K V) (k : K) (v : V) :
    ∀ x ∈ (HashTable.set hf t k v).allKeys, x = k ∨ x ∈ t.allKeys := by
  intro x hx
  simp only [HashTable.set] at hx
  split at hx
  · have hx2 := HashTable.rebuildTable_allKeys _ x hx
    rcases HashTable.add_allKeys t ⟨k, v, hf k⟩ [] x hx2 with h | h | h
    · exact Or.inl h
    · simp at h
    · exact Or.inr h
  · rcases HashTable.add_allKeys t ⟨k, v, hf k⟩ [] x hx with h | h | h
    · exact Or.inl h
    · simp at h
    · exact Or.inr h

/-- A returning `delete` introduces no new keys. -/
theorem HashTable.delete_allKeys {K V : Type} [DecidableEq K] (hf : K → Int)
    (t : HashTable K V) (key : K) (r : Option V) (t2 : HashTable K V)
    (h : t.delete hf key = DeleteOutcome.finished r t2) :
    ∀ x ∈ t2.allKeys, x ∈ t.allKeys := by
  simp only [HashTable.delete] at h
  split at h
  · cases h; exact fun x hx => hx
  · rename_i p rest hb
    split at h
    · cases h
      intro x hx
      rcases mem_flatMap_set _ _ _ _ _ hx with h2 | h2
      · rcases List.mem_map.1 h2 with ⟨e2, he2, rfl⟩
        exact mem_getD_allKeys t _ e2 (hb ▸ List.mem_cons_of_mem _ he2)
      · exact h2
    · split at h
      · cases h; exact fun x hx => hx
      · rename_i n rest2
        split at h
        · cases h
          intro x hx
          rcases mem_flatMap_set _ _ _ _ _ hx with h2 | h2
          · rcases List.mem_map.1 h2 with ⟨e2, he2, rfl⟩
            rcases List.mem_cons.1 he2 with h3 | h3
            · exact mem_getD_allKeys t _ e2
                (by rw [hb, h3]; exact List.mem_cons_self _ _)
            · exact mem_getD_allKeys t _ e2
                (by rw [hb]; exact List.mem_cons_of_mem _ (List.mem_cons_of_mem _ h3))
          · exact h2
        · cases h

/-- Table states reachable through the public interface, paired with the
list of keys that have been passed to `set` so far (`get` is a pure reader
and does not change the state; a `delete` that diverges yields no next
state). -/
inductive Reachable {K V : Type} [DecidableEq K] (hf : K → Int) :
    HashTable K V → List K → Prop where
  | init (n : Nat) : Reachable hf (HashTable.init K V n) []
  | set {t : HashTable K V} {ks : List K} (k : K) (v : V) :
      Reachable hf t ks → Reachable hf (HashTable.set hf t k v) (k :: ks)
  | delete {t : HashTable K V} {ks : List K} (k : K) {r : Option V}
      {t2 : HashTable K V} :
      Reachable hf t ks → t.delete hf k = DeleteOutcome.finished r t2 →
      Reachable hf t2 ks

/-- Every key stored in a reachable table was passed to `set`. -/
theorem Reachable.allKeys_subset {K V : Type} [DecidableEq K] {hf : K → Int}
    {t : HashTable K V} {ks : List K} (h : Reachable hf t ks) :
    ∀ x ∈ t.allKeys, x ∈ ks := by
  induction h with
  | init n => rw [HashTable.init_allKeys]; intro x hx; simp at hx
  | set k v _ ih =>
    intro x hx
    rcases HashTable.set_allKeys _ _ _ _ x hx with h | h
    · exact h ▸ List.mem_cons_self _ _
    · exact List.mem_cons_of_mem _ (ih x h)
  | delete k hr hdel ih =>
    intro x hx
    exact ih x (HashTable.delete_allKeys _ _ _ _ _ hdel x hx)

/-- A successful chain lookup means the looked-up key occurs in the
chain. -/
theorem HashNode.find_some_mem {K V : Type} [DecidableEq K]
    (c : HashChain K V) (k : K) (v : V) (h : HashNode.find c k = some v) :
    k ∈ c.map HashEntry.key := by
  induction c with
  | nil => simp [HashNode.find] at h
  | cons e rest ih =>
    rw [List.map_cons]
    simp only [HashNode.find] at h
    split at h
    next he => exact List.mem_cons.2 (Or.inl he.symm)
    next he => exact List.mem_cons.2 (Or.inr (ih h))

/-- C8: in every state reachable through the public interface, `get` on a
key never passed to `set` returns the supplied default, whatever that
default is — the bucket is computed from the key's hash and its chain is
walked by key equality, so a key that was never inserted matches no node.
`get` is embedded as a pure function producing only the returned value: it
has no table output at all, so it can neither mutate nor resize. -/
theorem get_returns_default_for_never_set_key {K V : Type} [DecidableEq K]
    (hf : K → Int) (t : HashTable K V) (ks : List K) (k : K) (d : V)
    (hr : Reachable hf t ks) (hk : k ∉ ks) :
    HashTable.get hf t k d = d := by
  simp only [HashTable.get]
  cases hfind : HashNode.find (t.table.getD (t.getTableIndex (hf k)) []) k with
  | none => rfl
  | some v =>
    exfalso
    have hkmem := HashNode.find_some_mem _ _ _ hfind
    have hall : k ∈ t.allKeys := by
      rcases List.mem_map.1 hkmem with ⟨e, he, hke⟩
      exact hke ▸ mem_getD_allKeys t _ e he
    exact hk (hr.allKeys_subset k hall)

/-- C8 witness: after setting only key 1, `get` on key 2 with default 7
returns 7. -/
theorem get_returns_default_for_never_set_key_witness :
    HashTable.get id (HashTable.set id (HashTable.init Int Nat 10) 1 5) 2 7 = 7 :=
  get_returns_default_for_never_set_key id _ [1] 2 7
    (Reachable.set 1 5 (Reachable.init 10)) (by decide)

/-! ## List helpers for bucket-array reasoning -/

/-- Reading back the slot just written. -/
theorem getD_set_self {α : Type} (l : List α) (i : Nat) (x d : α)
    (h : i < l.length) : (l.set i x).getD i d = x := by
  induction l generalizing i with
  | nil => simp at h
  | cons a l ih =>
    cases i with
    | zero => rfl
    | succ i =>
      rw [List.set_cons_succ, List.getD_cons_succ]
      exact ih i (by simpa using h)

/-- Writing one slot leaves the other slots unchanged. -/
theorem getD_set_ne {α : Type} (l : List α) (i j : Nat) (x d : α)
    (h : i ≠ j) : (l.set i x).getD j d = l.getD j d := by
  induction l generalizing i j with
  | nil => rfl
  | cons a l ih =>
    cases i with
    | zero =>
      cases j with
      | zero => exact absurd rfl h
      | succ j => rfl
    | succ i =>
      cases j with
      | zero => rfl
      | succ j =>
        rw [List.set_cons_succ, List.getD_cons_succ, List.getD_cons_succ]
        exact ih i j (fun hc => h (by rw [hc]))

/-- Writing a slot's current contents back is a no-op. -/
theorem set_getD_self {α : Type} (l : List α) (i : Nat) (d : α)
    (h : i < l.length) : l.set i (l.getD i d) = l := by
  induction l generalizing i with
  | nil => rfl
  | cons a l ih =>
    cases i with
    | zero => rfl
    | succ i =>
      rw [List.getD_cons_succ, List.set_cons_succ, ih i (by simpa using h)]

/-- Every slot of a freshly replicated bucket array is empty. -/
theorem getD_replicate_nil {α : Type} (n i : Nat) :
    (List.replicate n ([] : List α)).getD i [] = [] := by
  rcases Nat.lt_or_ge i n with h | h
  · rw [List.getD_eq_getElem _ _ (by simpa using h)]
    exact List.getElem_replicate _ _
  · exact List.getD_eq_default _ _ (by simpa using h)

/-- Dropping from a concatenation whose first part is dropped wholesale. -/
theorem dropWhile_append_of_all {α : Type} (p : α → Bool) (l1 l2 : List α)
    (h : ∀ x ∈ l1, p x = true) :
    (l1 ++ l2).dropWhile p = l2.dropWhile p := by
  induction l1 with
  | nil => rfl
  | cons a l ih =>
    rw [List.cons_append, List.dropWhile_cons, if_pos (h a (List.mem_cons_self a l))]
    exact ih (fun x hx => h x (List.mem_cons_of_mem a hx))

/-- An element that fails the predicate survives `dropWhile`. -/
theorem mem_dropWhile_of_not {α : Type} (p : α → Bool) (l : List α) (x : α)
    (hx : x ∈ l) (hpx : p x = false) : x ∈ l.dropWhile p := by
  induction l with
  | nil => simp at hx
  | cons a l ih =>
    rw [List.dropWhile_cons]
    rcases List.mem_cons.1 hx with h | h
    · subst h
      rw [if_neg (by simp [hpx])]
      exact List.mem_cons_self x l
    · split
      · exact ih h
      · exact List.mem_cons_of_mem a h

/-- In a chain whose keys are distinct, lookup at a stored entry's key
returns that entry's value. -/
theorem HashNode.find_eq_of_mem_nodup {K V : Type} [DecidableEq K]
    (c : HashChain K V) (e : HashEntry K V) (he : e ∈ c)
    (hnd : (c.map HashEntry.key).Nodup) :
    HashNode.find c e.key = some e.value := by
  induction c with
  | nil => simp at he
  | cons a rest ih =>
    simp only [HashNode.find]
    rw [List.map_cons, List.nodup_cons] at hnd
    by_cases ha : a.key = e.key
    · rcases List.mem_cons.1 he with h | h
      · rw [if_pos ha, h]
      · exact absurd (ha ▸ List.mem_map_of_mem HashEntry.key h) hnd.1
    · rw [if_neg ha]
      rcases List.mem_cons.1 he with h | h
      · subst h
        exact absurd rfl ha
      · exact ih h hnd.2

/-- Re-adding an entry already present in a duplicate-free chain leaves the
chain unchanged (the in-place overwrite writes the value it already
holds). -/
theorem HashNode.add_self_mem {K V : Type} [DecidableEq K]
    (c : HashChain K V) (e : HashEntry K V) (nt : HashChain K V)
    (he : e ∈ c) (hnd : (c.map HashEntry.key).Nodup) :
    (HashNode.add c e nt).1 = c := by
  induction c with
  | nil => simp at he
  | cons a rest ih =>
    rw [List.map_cons, List.nodup_cons] at hnd
    by_cases ha : a.key = e.key
    · have hae : a = e := by
        rcases List.mem_cons.1 he with h | h
        · exact h.symm
        · exact absurd (ha ▸ List.mem_map_of_mem HashEntry.key h) hnd.1
      cases rest with
      | nil => simp [HashNode.add, ha, hae]
      | cons r rs => simp [HashNode.add, ha, hae]
    · have he2 : e ∈ rest := by
        rcases List.mem_cons.1 he with h | h
        · subst h
          exact absurd rfl ha
        · exact h
      have hrest : rest ≠ [] := by
        intro hc
        rw [hc] at he2
        simp at he2
      cases rest with
      | nil => exact absurd rfl hrest
      | cons r rs =>
        simp only [HashNode.add, ha, if_false]
        rw [ih he2 hnd.2]

/-- A remainder modulo a doubled modulus is the remainder or the remainder
plus the original modulus. -/
theorem mod_double_cases (x s : Nat) (hs : 0 < s) :
    x % (s * 2) = x % s ∨ x % (s * 2) = x % s + s := by
  have h2 : x % (s * 2) < s * 2 := Nat.mod_lt x (by omega)
  have h1 : x % (s * 2) % s = x % s := Nat.mod_mod_of_dvd x ⟨2, rfl⟩
  have h3 := Nat.div_add_mod (x % (s * 2)) s
  have h4 : x % (s * 2) / s ≤ 1 := by
    by_contra hc
    push_neg at hc
    have h6 : s * 2 ≤ s * (x % (s * 2) / s) := Nat.mul_le_mul_left s hc
    omega
  rcases Nat.le_one_iff_eq_zero_or_eq_one.1 h4 with h5 | h5 <;> rw [h5] at h3 <;> omega

/-! ## Table-level evaluation lemmas for one `_add` -/

/-- Evaluation of `_add` when the target bucket is empty: the node (with
its tail) becomes the bucket slot, growth 1. -/
theorem HashTable.add_eq_empty {K V : Type} [DecidableEq K] (t : HashTable K V)
    (n : HashEntry K V) (nt : HashChain K V)
    (hb : t.table.getD (t.getTableIndex n.hash_code) [] = []) :
    t.add n nt =
      (1, { t with table := t.table.set (t.getTableIndex n.hash_code) (n :: nt) }) := by
  simp only [HashTable.add, hb]

/-- Evaluation of `_add` when the target bucket holds a chain: delegate to
the head node's `add`. -/
theorem HashTable.add_eq_nonempty {K V : Type} [DecidableEq K] (t : HashTable K V)
    (n : HashEntry K V) (nt : HashChain K V) (e0 : HashEntry K V) (rest : HashChain K V)
    (hb : t.table.getD (t.getTableIndex n.hash_code) [] = e0 :: rest) :
    t.add n nt =
      ((HashNode.add (e0 :: rest) n nt).2,
       { t with table := t.table.set (t.getTableIndex n.hash_code) ((HashNode.add (e0 :: rest) n nt).1) }) := by
  simp only [HashTable.add, hb]

/-- `_add` of a node whose key is absent from its bucket appends the node
(with its tail) at the true tail of the bucket's chain and grows by 1. -/
theorem HashTable.add_of_not_mem_bucket {K V : Type} [DecidableEq K]
    (t : HashTable K V) (n : HashEntry K V) (nt : HashChain K V)
    (hk : n.key ∉ (t.table.getD (t.getTableIndex n.hash_code) []).map HashEntry.key) :
    t.add n nt =
      (1, { t with table := t.table.set (t.getTableIndex n.hash_code) ((t.table.getD (t.getTableIndex n.hash_code) []) ++ n :: nt) }) := by
  cases hb : t.table.getD (t.getTableIndex n.hash_code) [] with
  | nil =>
    rw [HashTable.add_eq_empty t n nt hb]
    rfl
  | cons e0 rest =>
    rw [hb] at hk
    rw [HashTable.add_eq_nonempty t n nt e0 rest hb, HashNode.add_of_not_mem _ _ _ hk]

/-- `_add` of a node whose key already sits in its bucket: growth 0, and if
the bucket's keys are distinct and the very entry is present, the bucket is
left unchanged. -/
theorem HashTable.add_eq_of_mem {K V : Type} [DecidableEq K]
    (t : HashTable K V) (n : HashEntry K V) (nt : HashChain K V)
    (hlen : t.getTableIndex n.hash_code < t.table.length)
    (hmem : n ∈ t.table.getD (t.getTableIndex n.hash_code) [])
    (hnd : ((t.table.getD (t.getTableIndex n.hash_code) []).map HashEntry.key).Nodup) :
    t.add n nt = (0, t) := by
  cases hb : t.table.getD (t.getTableIndex n.hash_code) [] with
  | nil => rw [hb] at hmem; simp at hmem
  | cons e0 rest =>
    rw [hb] at hmem hnd
    rw [HashTable.add_eq_nonempty t n nt e0 rest hb,
      HashNode.add_self_mem _ _ _ hmem hnd,
      HashNode.add_of_mem_snd _ _ _ (List.mem_map_of_mem HashEntry.key hmem), ← hb,
      set_getD_self _ _ _ hlen]

/-! ## Characterisation of tables built by inserting distinct fresh keys -/

/-- The chain that bucket `j` of a size-`s` table holds after the key/value
pairs `kvs` (distinct keys, no resize) have been inserted in order: the
pairs hashing to `j`, in insertion order, each as an entry with its hash
computed at insertion. -/
def chainOf {K V : Type} (hf : K → Int) (s : Nat) (kvs : List (K × V))
    (j : Nat) : HashChain K V :=
  (kvs.filter (fun kv => decide ((hf kv.1).natAbs % s = j))).map
    (fun kv => ⟨kv.1, kv.2, hf kv.1⟩)

/-- A table is fully characterised by an insertion sequence `kvs`. -/
def CharTable {K V : Type} (hf : K → Int) (s : Nat) (kvs : List (K × V))
    (t : HashTable K V) : Prop :=
  t.size = s ∧ t.table.length = s ∧ t.count = (kvs.length : Int) ∧
    ∀ j, t.table.getD j [] = chainOf hf s kvs j

/-- Keys of a characterised bucket are the keys of the pairs hashing
there. -/
theorem chainOf_keys {K V : Type} (hf : K → Int) (s : Nat) (kvs : List (K × V))
    (j : Nat) :
    (chainOf hf s kvs j).map HashEntry.key =
      (kvs.filter (fun kv => decide ((hf kv.1).natAbs % s = j))).map Prod.fst := by
  simp [chainOf, List.map_map, Function.comp]

/-- Appending one pair extends exactly its own bucket's characterised
chain. -/
theorem chainOf_append_single {K V : Type} (hf : K → Int) (s : Nat)
    (kvs : List (K × V)) (k : K) (v : V) (j : Nat) :
    chainOf hf s (kvs ++ [(k, v)]) j =
      chainOf hf s kvs j ++
        (if (hf k).natAbs % s = j then [⟨k, v, hf k⟩] else []) := by
  simp only [chainOf, List.filter_append, List.map_append]
  congr 1
  by_cases h : (hf k).natAbs % s = j
  · simp [List.filter, h]
  · simp [List.filter, h]

/-- Entries of a characterised chain record their insertion-time hash. -/
theorem chainOf_mem {K V : Type} (hf : K → Int) (s : Nat) (kvs : List (K × V))
    (j : Nat) (e : HashEntry K V) (he : e ∈ chainOf hf s kvs j) :
    (e.key, e.value) ∈ kvs ∧ e.hash_code = hf e.key ∧ e.hash_code.natAbs % s = j := by
  simp only [chainOf, List.mem_map, List.mem_filter] at he
  rcases he with ⟨kv, ⟨hkv, hj⟩, rfl⟩
  simp only [decide_eq_true_eq] at hj
  exact ⟨hkv, rfl, hj⟩

/-- One `set` of a fresh key on a characterised table: the new node is
appended at the true tail of its bucket, the count grows by one, and `set`
returns that table or — exactly when the threshold test fires — its
rebuild. -/
theorem set_on_char {K V : Type} [DecidableEq K] (hf : K → Int) (s : Nat)
    (hs : 0 < s) (kvs : List (K × V)) (k : K) (v : V) (t : HashTable K V)
    (hchar : CharTable hf s kvs t) (hk : k ∉ kvs.map Prod.fst) :
    ∃ t2 : HashTable K V, CharTable hf s (kvs ++ [(k, v)]) t2 ∧
      (t2.isTooFull = decide (10 * ((kvs.length : Int) + 1) ≥ 7 * (s : Int))) ∧
      HashTable.set hf t k v = (if t2.isTooFull then t2.rebuildTable else t2) := by
  obtain ⟨hsz, hlen, hcnt, hbk⟩ := hchar
  have hidx : t.getTableIndex (hf k) = (hf k).natAbs % s := by
    simp [HashTable.getTableIndex, hsz]
  have hblt : (hf k).natAbs % s < t.table.length := by
    rw [hlen]
    exact Nat.mod_lt _ hs
  have hkb : k ∉ (t.table.getD (t.getTableIndex (hf k)) []).map HashEntry.key := by
    rw [hidx, hbk, chainOf_keys]
    intro hc
    exact hk ((List.Sublist.map Prod.fst (List.filter_sublist kvs)).subset hc)
  have hadd := HashTable.add_of_not_mem_bucket t ⟨k, v, hf k⟩ [] hkb
  refine ⟨{ (t.add ⟨k, v, hf k⟩ []).2 with
      count := ((t.add ⟨k, v, hf k⟩ []).2).count + ((t.add ⟨k, v, hf k⟩ []).1 : Int) },
    ⟨?_, ?_, ?_, ?_⟩, ?_, ?_⟩
  · simp only [hadd]
    exact hsz
  · simp only [hadd, List.length_set]
    exact hlen
  · simp only [hadd, hcnt, List.length_append, List.length_singleton]
    push_cast
    ring
  · intro j
    simp only [hadd, hidx, hbk, chainOf_append_single]
    by_cases hj : (hf k).natAbs % s = j
    · rw [← hj, getD_set_self _ _ _ _ hblt, if_pos rfl]
    · rw [getD_set_ne _ _ _ _ _ hj, hbk, if_neg hj, List.append_nil]
  · simp only [HashTable.isTooFull, hadd, hcnt, hsz, Nat.cast_one]
  · simp only [HashTable.set]

/-- A sequence of `set` calls processes its pairs left to right. -/
theorem insertList_append_single {K V : Type} [DecidableEq K] (hf : K → Int)
    (t : HashTable K V) (kvs : List (K × V)) (kv : K × V) :
    insertList hf t (kvs ++ [kv]) =
      HashTable.set hf (insertList hf t kvs) kv.1 kv.2 := by
  simp [insertList, List.foldl_append]

/-- Inserting distinct keys while staying below the resize threshold yields
exactly the characterised table: size and bucket count unchanged, count
equal to the number of pairs, and every bucket the insertion-ordered chain
of the pairs hashing to it. -/
theorem insertList_char {K V : Type} [DecidableEq K] (hf : K → Int) (s : Nat)
    (hs : 0 < s) (kvs : List (K × V)) (hnd : (kvs.map Prod.fst).Nodup)
    (hcross : 10 * kvs.length < 7 * s) :
    CharTable hf s kvs (insertList hf (HashTable.init K V s) kvs) := by
  induction kvs using List.reverseRecOn with
  | nil =>
    refine ⟨rfl, by simp [insertList, HashTable.init], rfl, fun j => ?_⟩
    show (HashTable.init K V s).table.getD j [] = chainOf hf s [] j
    simp [HashTable.init, chainOf, getD_replicate_nil]
  | append_singleton kvs kv ih =>
    obtain ⟨k, v⟩ := kv
    rw [List.map_append, List.nodup_append] at hnd
    obtain ⟨hnd1, _, hdisj⟩ := hnd
    have hk : k ∉ kvs.map Prod.fst := by
      intro hc
      exact hdisj hc (by simp)
    have hcross1 : 10 * kvs.length < 7 * s := by
      rw [List.length_append, List.length_singleton] at hcross
      omega
    obtain ⟨t2, hchar2, htf, heq⟩ :=
      set_on_char hf s hs kvs k v _ (ih hnd1 hcross1) hk
    rw [insertList_append_single, heq]
    have hnot : ¬(10 * ((kvs.length : Int) + 1) ≥ 7 * (s : Int)) := by
      rw [List.length_append, List.length_singleton] at hcross
      omega
    rw [htf, decide_eq_false hnot]
    simpa using hchar2

/-! ## The rebuild characterised on clean tables -/

/-- Cleanliness of a table state: the bucket array has the declared size,
every entry sits in the bucket selected by its stored hash, and each
bucket's keys are distinct.  Every table reachable before the first
chain-splitting rebuild is clean; this is the faithful range of the
value-level embedding of the Python object graph. -/
structure CleanTable {K V : Type} (t : HashTable K V) : Prop where
  pos : 0 < t.size
  len_eq : t.table.length = t.size
  bucket_consistent : ∀ j, ∀ e ∈ t.table.getD j [], e.hash_code.natAbs % t.size = j
  chains_nodup : ∀ j, ((t.table.getD j []).map HashEntry.key).Nodup

/-- The fold `_rebuild_table` performs: re-`_add` every node in iteration
order. -/
def addFold {K V : Type} [DecidableEq K]
    (l : List (HashEntry K V × HashChain K V)) (acc : HashTable K V) :
    HashTable K V :=
  l.foldl (fun acc n => (HashTable.add acc n.1 n.2).2) acc

/-- `_rebuild_table` is exactly that fold started on a fresh double-size
table, with `_table` and `_size` copied back. -/
theorem HashTable.rebuildTable_eq_addFold {K V : Type} [DecidableEq K]
    (t : HashTable K V) :
    t.rebuildTable =
      { t with table := (addFold t.iterNodes (HashTable.init K V (t.size * 2))).table,
               size := (addFold t.iterNodes (HashTable.init K V (t.size * 2))).size } := rfl

/-- Folding over a concatenation of node lists. -/
theorem addFold_append {K V : Type} [DecidableEq K]
    (l1 l2 : List (HashEntry K V × HashChain K V)) (acc : HashTable K V) :
    addFold (l1 ++ l2) acc = addFold l2 (addFold l1 acc) := by
  simp [addFold, List.foldl_append]

/-- The fold preserves `_size` and `_number_of_nodes`. -/
theorem addFold_size_count {K V : Type} [DecidableEq K]
    (l : List (HashEntry K V × HashChain K V)) (acc : HashTable K V) :
    (addFold l acc).size = acc.size ∧ (addFold l acc).count = acc.count := by
  induction l generalizing acc with
  | nil => exact ⟨rfl, rfl⟩
  | cons p l ih =>
    rw [addFold, List.foldl_cons]
    refine ⟨?_, ?_⟩
    · rw [show (List.foldl (fun acc n => (HashTable.add acc n.1 n.2).2) ((acc.add p.1 p.2).2) l) = addFold l ((acc.add p.1 p.2).2) from rfl,
        (ih _).1, HashTable.add_size]
    · rw [show (List.foldl (fun acc n => (HashTable.add acc n.1 n.2).2) ((acc.add p.1 p.2).2) l) = addFold l ((acc.add p.1 p.2).2) from rfl,
        (ih _).2, HashTable.add_count]

/-- The fold preserves the bucket-array length. -/
theorem addFold_length {K V : Type} [DecidableEq K]
    (l : List (HashEntry K V × HashChain K V)) (acc : HashTable K V) :
    (addFold l acc).table.length = acc.table.length := by
  induction l generalizing acc with
  | nil => rfl
  | cons p l ih =>
    rw [addFold, List.foldl_cons,
      show (List.foldl (fun acc n => (HashTable.add acc n.1 n.2).2) ((acc.add p.1 p.2).2) l) = addFold l ((acc.add p.1 p.2).2) from rfl,
      ih]
    simp only [HashTable.add]
    split <;> simp [List.length_set]

/-- Core of the rebuild analysis.  `C` is one chain of a clean table (old
bucket `b`, old modulus `s`); its nodes are folded into a double-size
table.  After the nodes of the prefix `pre` have been processed, each of
the two target buckets `b` and `b + s` holds the full suffix of `C` from
the first element hashing there (or nothing); processing the remaining
nodes `suf` completes both buckets to that suffix and touches no other
bucket.  Each node either finds its bucket empty and plants its whole
remaining chain, or finds itself already planted and overwrites itself in
place. -/
theorem chain_fold_aux {K V : Type} [DecidableEq K] (s b : Nat) (hs : 0 < s)
    (hb : b < s) (C : HashChain K V)
    (hC : ∀ e ∈ C, e.hash_code.natAbs % s = b)
    (hnd : (C.map HashEntry.key).Nodup) :
    ∀ (suf pre : HashChain K V) (acc : HashTable K V),
      C = pre ++ suf →
      acc.size = s * 2 → acc.table.length = s * 2 →
      (acc.table.getD b [] =
        if ∃ x ∈ pre, x.hash_code.natAbs % (s * 2) = b
        then C.dropWhile (fun e => decide (e.hash_code.natAbs % (s * 2) ≠ b)) else []) →
      (acc.table.getD (b + s) [] =
        if ∃ x ∈ pre, x.hash_code.natAbs % (s * 2) = b + s
        then C.dropWhile (fun e => decide (e.hash_code.natAbs % (s * 2) ≠ (b + s))) else []) →
      (addFold (HashNode.nodes suf) acc).size = acc.size ∧
      (addFold (HashNode.nodes suf) acc).count = acc.count ∧
      (addFold (HashNode.nodes suf) acc).table.length = acc.table.length ∧
      (addFold (HashNode.nodes suf) acc).table.getD b [] =
        C.dropWhile (fun e => decide (e.hash_code.natAbs % (s * 2) ≠ b)) ∧
      (addFold (HashNode.nodes suf) acc).table.getD (b + s) [] =
        C.dropWhile (fun e => decide (e.hash_code.natAbs % (s * 2) ≠ (b + s))) ∧
      ∀ j, j ≠ b → j ≠ b + s →
        (addFold (HashNode.nodes suf) acc).table.getD j [] = acc.table.getD j [] := by
  intro suf
  induction suf with
  | nil =>
    intro pre acc hsplit hsize hlen haccb haccbs
    rw [List.append_nil] at hsplit
    refine ⟨rfl, rfl, rfl, ?_, ?_, fun j h1 h2 => rfl⟩
    · show acc.table.getD b [] = _
      rw [haccb]
      split
      next h => rfl
      next h =>
        push_neg at h
        symm
        rw [List.dropWhile_eq_nil_iff]
        intro x hx
        rw [hsplit] at hx
        exact decide_eq_true (h x hx)
    · show acc.table.getD (b + s) [] = _
      rw [haccbs]
      split
      next h => rfl
      next h =>
        push_neg at h
        symm
        rw [List.dropWhile_eq_nil_iff]
        intro x hx
        rw [hsplit] at hx
        exact decide_eq_true (h x hx)
  | cons e r ih =>
    intro pre acc hsplit hsize hlen haccb haccbs
    have heC : e ∈ C := by
      rw [hsplit]
      exact List.mem_append_right pre (List.mem_cons_self e r)
    have hidx1 : e.hash_code.natAbs % s = b := hC e heC
    have hsplit2 : C = (pre ++ [e]) ++ r := by
      rw [hsplit, List.append_assoc]
      rfl
    have hbne : b ≠ b + s := by omega
    have hidxe : acc.getTableIndex e.hash_code = e.hash_code.natAbs % (s * 2) := by
      simp [HashTable.getTableIndex, hsize]
    have hstep : addFold (HashNode.nodes (e :: r)) acc
        = addFold (HashNode.nodes r) ((acc.add e r).2) := rfl
    have hj : e.hash_code.natAbs % (s * 2) = b ∨
        e.hash_code.natAbs % (s * 2) = b + s := by
      rcases mod_double_cases e.hash_code.natAbs s hs with h | h
      · exact Or.inl (by rw [h, hidx1])
      · exact Or.inr (by rw [h, hidx1])
    rcases hj with hj | hj
    · -- the node targets bucket b
      by_cases hex : ∃ x ∈ pre, x.hash_code.natAbs % (s * 2) = b
      · -- already planted there: the node overwrites itself in place
        have hch : acc.table.getD b []
            = C.dropWhile (fun x => decide (x.hash_code.natAbs % (s * 2) ≠ b)) := by
          rw [haccb, if_pos hex]
        have hmem : e ∈ acc.table.getD b [] := by
          rw [hch]
          exact mem_dropWhile_of_not _ _ _ heC (by simp [hj])
        have hndch : ((acc.table.getD b []).map HashEntry.key).Nodup := by
          rw [hch]
          exact List.Nodup.sublist
            (List.Sublist.map HashEntry.key (List.dropWhile_sublist _)) hnd
        have hadd : acc.add e r = (0, acc) := by
          apply HashTable.add_eq_of_mem
          · rw [hidxe, hj, hlen]
            omega
          · rw [hidxe, hj]
            exact hmem
          · rw [hidxe, hj]
            exact hndch
        have hiffb : (∃ x ∈ pre ++ [e], x.hash_code.natAbs % (s * 2) = b) ↔
            (∃ x ∈ pre, x.hash_code.natAbs % (s * 2) = b) := by
          constructor
          · rintro ⟨x, hx, hx2⟩
            rcases List.mem_append.1 hx with h | h
            · exact ⟨x, h, hx2⟩
            · exact hex
          · rintro ⟨x, hx, hx2⟩
            exact ⟨x, List.mem_append_left _ hx, hx2⟩
        have hiffbs : (∃ x ∈ pre ++ [e], x.hash_code.natAbs % (s * 2) = b + s) ↔
            (∃ x ∈ pre, x.hash_code.natAbs % (s * 2) = b + s) := by
          constructor
          · rintro ⟨x, hx, hx2⟩
            rcases List.mem_append.1 hx with h | h
            · exact ⟨x, h, hx2⟩
            · rw [List.mem_singleton.1 h] at hx2
              rw [hj] at hx2
              exact absurd hx2 hbne
          · rintro ⟨x, hx, hx2⟩
            exact ⟨x, List.mem_append_left _ hx, hx2⟩
        obtain ⟨h1, h2, h3, h4, h5, h6⟩ := ih (pre ++ [e]) acc hsplit2 hsize hlen
          (by rw [haccb]; exact if_congr hiffb.symm rfl rfl)
          (by rw [haccbs]; exact if_congr hiffbs.symm rfl rfl)
        rw [hstep, hadd]
        exact ⟨h1, h2, h3, h4, h5, h6⟩
      · -- bucket b still empty: the node plants its whole remaining chain
        have hemptyb : acc.table.getD b [] = [] := by
          rw [haccb, if_neg hex]
        have hadd : acc.add e r
            = (1, { acc with table := acc.table.set b (e :: r) }) := by
          have h0 := HashTable.add_eq_empty acc e r (by rw [hidxe, hj]; exact hemptyb)
          rw [hidxe, hj] at h0
          exact h0
        have hblt2 : b < acc.table.length := by
          rw [hlen]
          omega
        have hplanted : (acc.table.set b (e :: r)).getD b []
            = C.dropWhile (fun x => decide (x.hash_code.natAbs % (s * 2) ≠ b)) := by
          rw [getD_set_self _ _ _ _ hblt2, hsplit,
            dropWhile_append_of_all _ _ _ ?hall, List.dropWhile_cons,
            if_neg (by simp [hj])]
          case hall =>
            intro x hx
            push_neg at hex
            exact decide_eq_true (hex x hx)
        have hiffb : ∃ x ∈ pre ++ [e], x.hash_code.natAbs % (s * 2) = b :=
          ⟨e, List.mem_append_right _ (List.mem_cons_self e []), hj⟩
        have hiffbs : (∃ x ∈ pre ++ [e], x.hash_code.natAbs % (s * 2) = b + s) ↔
            (∃ x ∈ pre, x.hash_code.natAbs % (s * 2) = b + s) := by
          constructor
          · rintro ⟨x, hx, hx2⟩
            rcases List.mem_append.1 hx with h | h
            · exact ⟨x, h, hx2⟩
            · rw [List.mem_singleton.1 h] at hx2
              rw [hj] at hx2
              exact absurd hx2 hbne
          · rintro ⟨x, hx, hx2⟩
            exact ⟨x, List.mem_append_left _ hx, hx2⟩
        obtain ⟨h1, h2, h3, h4, h5, h6⟩ :=
          ih (pre ++ [e]) { acc with table := acc.table.set b (e :: r) } hsplit2
            hsize
            (by show (acc.table.set b (e :: r)).length = s * 2
                rw [List.length_set]
                exact hlen)
            (by show (acc.table.set b (e :: r)).getD b [] = _
                rw [if_pos hiffb]
                exact hplanted)
            (by show (acc.table.set b (e :: r)).getD (b + s) [] = _
                rw [getD_set_ne _ _ _ _ _ hbne, haccbs]
                exact if_congr hiffbs.symm rfl rfl)
        rw [hstep, hadd]
        refine ⟨h1, h2, ?_, h4, h5, ?_⟩
        · rw [h3]
          show (acc.table.set b (e :: r)).length = acc.table.length
          rw [List.length_set]
        · intro j hj1 hj2
          rw [h6 j hj1 hj2]
          show (acc.table.set b (e :: r)).getD j [] = acc.table.getD j []
          rw [getD_set_ne _ _ _ _ _ (fun hc => hj1 hc.symm)]
    · -- the node targets bucket b + s (symmetric)
      by_cases hex : ∃ x ∈ pre, x.hash_code.natAbs % (s * 2) = b + s
      · have hch : acc.table.getD (b + s) []
            = C.dropWhile (fun x => decide (x.hash_code.natAbs % (s * 2) ≠ (b + s))) := by
          rw [haccbs, if_pos hex]
        have hmem : e ∈ acc.table.getD (b + s) [] := by
          rw [hch]
          exact mem_dropWhile_of_not _ _ _ heC (by simp [hj])
        have hndch : ((acc.table.getD (b + s) []).map HashEntry.key).Nodup := by
          rw [hch]
          exact List.Nodup.sublist
            (List.Sublist.map HashEntry.key (List.dropWhile_sublist _)) hnd
        have hadd : acc.add e r = (0, acc) := by
          apply HashTable.add_eq_of_mem
          · rw [hidxe, hj, hlen]
            omega
          · rw [hidxe, hj]
            exact hmem
          · rw [hidxe, hj]
            exact hndch
        have hiffb : (∃ x ∈ pre ++ [e], x.hash_code.natAbs % (s * 2) = b) ↔
            (∃ x ∈ pre, x.hash_code.natAbs % (s * 2) = b) := by
          constructor
          · rintro ⟨x, hx, hx2⟩
            rcases List.mem_append.1 hx with h | h
            · exact ⟨x, h, hx2⟩
            · rw [List.mem_singleton.1 h] at hx2
              rw [hj] at hx2
              exact absurd hx2.symm hbne
          · rintro ⟨x, hx, hx2⟩
            exact ⟨x, List.mem_append_left _ hx, hx2⟩
        have hiffbs : (∃ x ∈ pre ++ [e], x.hash_code.natAbs % (s * 2) = b + s) ↔
            (∃ x ∈ pre, x.hash_code.natAbs % (s * 2) = b + s) := by
          constructor
          · rintro ⟨x, hx, hx2⟩
            rcases List.mem_append.1 hx with h | h
            · exact ⟨x, h, hx2⟩
            · exact hex
          · rintro ⟨x, hx, hx2⟩
            exact ⟨x, List.mem_append_left _ hx, hx2⟩
        obtain ⟨h1, h2, h3, h4, h5, h6⟩ := ih (pre ++ [e]) acc hsplit2 hsize hlen
          (by rw [haccb]; exact if_congr hiffb.symm rfl rfl)
          (by rw [haccbs]; exact if_congr hiffbs.symm rfl rfl)
        rw [hstep, hadd]
        exact ⟨h1, h2, h3, h4, h5, h6⟩
      · have hemptybs : acc.table.getD (b + s) [] = [] := by
          rw [haccbs, if_neg hex]
        have hadd : acc.add e r
            = (1, { acc with table := acc.table.set (b + s) (e :: r) }) := by
          have h0 := HashTable.add_eq_empty acc e r (by rw [hidxe, hj]; exact hemptybs)
          rw [hidxe, hj] at h0
          exact h0
        have hbslt2 : b + s < acc.table.length := by
          rw [hlen]
          omega
        have hplanted : (acc.table.set (b + s) (e :: r)).getD (b + s) []
            = C.dropWhile (fun x => decide (x.hash_code.natAbs % (s * 2) ≠ (b + s))) := by
          rw [getD_set_self _ _ _ _ hbslt2, hsplit,
            dropWhile_append_of_all _ _ _ ?hall, List.dropWhile_cons,
            if_neg (by simp [hj])]
          case hall =>
            intro x hx
            push_neg at hex
            exact decide_eq_true (hex x hx)
        have hiffb : (∃ x ∈ pre ++ [e], x.hash_code.natAbs % (s * 2) = b) ↔
            (∃ x ∈ pre, x.hash_code.natAbs % (s * 2) = b) := by
          constructor
          · rintro ⟨x, hx, hx2⟩
            rcases List.mem_append.1 hx with h | h
            · exact ⟨x, h, hx2⟩
            · rw [List.mem_singleton.1 h] at hx2
              rw [hj] at hx2
              exact absurd hx2.symm hbne
          · rintro ⟨x, hx, hx2⟩
            exact ⟨x, List.mem_append_left _ hx, hx2⟩
        have hexbs : ∃ x ∈ pre ++ [e], x.hash_code.natAbs % (s * 2) = b + s :=
          ⟨e, List.mem_append_right _ (List.mem_cons_self e []), hj⟩
        obtain ⟨h1, h2, h3, h4, h5, h6⟩ :=
          ih (pre ++ [e]) { acc with table := acc.table.set (b + s) (e :: r) } hsplit2
            hsize
            (by show (acc.table.set (b + s) (e :: r)).length = s * 2
                rw [List.length_set]
                exact hlen)
            (by show (acc.table.set (b + s) (e :: r)).getD b [] = _
                rw [getD_set_ne _ _ _ _ _ (fun hc => hbne hc.symm), haccb]
                exact if_congr hiffb.symm rfl rfl)
            (by show (acc.table.set (b + s) (e :: r)).getD (b + s) [] = _
                rw [if_pos hexbs]
                exact hplanted)
        rw [hstep, hadd]
        refine ⟨h1, h2, ?_, h4, h5, ?_⟩
        · rw [h3]
          show (acc.table.set (b + s) (e :: r)).length = acc.table.length
          rw [List.length_set]
        · intro j hj1 hj2
          rw [h6 j hj1 hj2]
          show (acc.table.set (b + s) (e :: r)).getD j [] = acc.table.getD j []
          rw [getD_set_ne _ _ _ _ _ (fun hc => hj2 hc.symm)]

/-- Folding all chains of a clean table, bucket by bucket, into a
double-size table: each old bucket `b0 + i` fills exactly the two new
buckets `b0 + i` and `b0 + i + s` with the corresponding suffixes of its
chain, and no other bucket is touched. -/
theorem buckets_fold_aux {K V : Type} [DecidableEq K] (s : Nat) (hs : 0 < s) :
    ∀ (bs : List (HashChain K V)) (b0 : Nat) (acc : HashTable K V),
      b0 + bs.length ≤ s →
      acc.size = s * 2 → acc.table.length = s * 2 →
      (∀ i, i < bs.length → ∀ e ∈ bs.getD i [], e.hash_code.natAbs % s = b0 + i) →
      (∀ i, i < bs.length → ((bs.getD i []).map HashEntry.key).Nodup) →
      (∀ i, i < bs.length →
        acc.table.getD (b0 + i) [] = [] ∧ acc.table.getD (b0 + i + s) [] = []) →
      (addFold (bs.flatMap HashNode.nodes) acc).size = acc.size ∧
      (addFold (bs.flatMap HashNode.nodes) acc).count = acc.count ∧
      (addFold (bs.flatMap HashNode.nodes) acc).table.length = acc.table.length ∧
      (∀ i, i < bs.length →
        (addFold (bs.flatMap HashNode.nodes) acc).table.getD (b0 + i) [] =
          (bs.getD i []).dropWhile
            (fun e => decide (e.hash_code.natAbs % (s * 2) ≠ (b0 + i))) ∧
        (addFold (bs.flatMap HashNode.nodes) acc).table.getD (b0 + i + s) [] =
          (bs.getD i []).dropWhile
            (fun e => decide (e.hash_code.natAbs % (s * 2) ≠ (b0 + i + s)))) ∧
      (∀ j, (∀ i, i < bs.length → j ≠ b0 + i ∧ j ≠ b0 + i + s) →
        (addFold (bs.flatMap HashNode.nodes) acc).table.getD j [] =
          acc.table.getD j []) := by
  intro bs
  induction bs with
  | nil =>
    intro b0 acc _ _ _ _ _ _
    exact ⟨rfl, rfl, rfl, fun i hi => absurd hi (by simp), fun j _ => rfl⟩
  | cons C bs ih =>
    intro b0 acc hbound hsize hlen hcons hnodups hempty
    have hlenC : (C :: bs).length = bs.length + 1 := rfl
    have hb0 : b0 < s := by
      rw [hlenC] at hbound
      omega
    have hCcons : ∀ e ∈ C, e.hash_code.natAbs % s = b0 := by
      have h := hcons 0 (by simp)
      simpa using h
    have hCnd : (C.map HashEntry.key).Nodup := by
      have h := hnodups 0 (by simp)
      simpa using h
    have hem := hempty 0 (by simp)
    obtain ⟨g1, g2, g3, g4, g5, g6⟩ :=
      chain_fold_aux s b0 hs hb0 C hCcons hCnd C [] acc rfl hsize hlen
        (by rw [if_neg (by simp)]; simpa using hem.1)
        (by rw [if_neg (by simp)]; simpa using hem.2)
    have htot : addFold ((C :: bs).flatMap HashNode.nodes) acc
        = addFold (bs.flatMap HashNode.nodes) (addFold (HashNode.nodes C) acc) := by
      rw [List.flatMap_cons, addFold_append]
    obtain ⟨f1, f2, f3, f4, f5⟩ :=
      ih (b0 + 1) (addFold (HashNode.nodes C) acc)
        (by rw [hlenC] at hbound; omega)
        (by rw [g1]; exact hsize)
        (by rw [g3]; exact hlen)
        (by
          intro i hi e he
          have h := hcons (i + 1) (by rw [hlenC]; omega) e
            (by rw [List.getD_cons_succ]; exact he)
          rw [h]
          omega)
        (by
          intro i hi
          have h := hnodups (i + 1) (by rw [hlenC]; omega)
          rwa [List.getD_cons_succ] at h)
        (by
          intro i hi
          have h1 := hempty (i + 1) (by rw [hlenC]; omega)
          rw [hlenC] at hbound
          constructor
          · rw [g6 (b0 + 1 + i) (by omega) (by omega)]
            have := h1.1
            rw [show b0 + (i + 1) = b0 + 1 + i by omega] at this
            exact this
          · rw [g6 (b0 + 1 + i + s) (by omega) (by omega)]
            have := h1.2
            rw [show b0 + (i + 1) + s = b0 + 1 + i + s by omega] at this
            exact this)
    rw [hlenC] at hbound
    refine ⟨?_, ?_, ?_, ?_, ?_⟩
    · rw [htot, f1, g1]
    · rw [htot, f2, g2]
    · rw [htot, f3, g3]
    · intro i hi
      cases i with
      | zero =>
        constructor
        · rw [htot, f5 (b0 + 0) (by intro i hi2; omega)]
          rw [show b0 + 0 = b0 by omega]
          rw [g4]
          rfl
        · rw [htot, f5 (b0 + 0 + s) (by intro i hi2; omega)]
          rw [show b0 + 0 + s = b0 + s by omega]
          rw [g5]
          rfl
      | succ i =>
        rw [hlenC] at hi
        have hii : i < bs.length := by omega
        constructor
        · rw [htot, show b0 + (i + 1) = b0 + 1 + i by omega, (f4 i hii).1,
            List.getD_cons_succ]
        · rw [htot, show b0 + (i + 1) + s = b0 + 1 + i + s by omega, (f4 i hii).2,
            List.getD_cons_succ]
    · intro j hj
      have hj0 := hj 0 (by rw [hlenC]; omega)
      rw [htot, f5 j ?hrest, g6 j (by simpa using hj0.1) (by simpa using hj0.2)]
      case hrest =>
        intro i hi
        have h := hj (i + 1) (by rw [hlenC]; omega)
        constructor
        · rw [show b0 + 1 + i = b0 + (i + 1) by omega]
          exact h.1
        · rw [show b0 + 1 + i + s = b0 + (i + 1) + s by omega]
          exact h.2

/-- Full characterisation of `_rebuild_table` on a clean table: size and
bucket array double, the entry count is untouched, and new bucket `j`
holds exactly the suffix of the old chain of bucket `j mod size` starting
at its first entry that hashes to `j` under the doubled modulus — stale
`next_node` tails included. -/
theorem rebuildTable_bucket_char {K V : Type} [DecidableEq K] (t : HashTable K V)
    (hc : CleanTable t) :
    (t.rebuildTable).size = t.size * 2 ∧
    (t.rebuildTable).count = t.count ∧
    (t.rebuildTable).table.length = t.size * 2 ∧
    ∀ j, j < t.size * 2 →
      (t.rebuildTable).table.getD j [] =
        (t.table.getD (j % t.size) []).dropWhile
          (fun e => decide (e.hash_code.natAbs % (t.size * 2) ≠ j)) := by
  obtain ⟨hpos, hlen, hbc, hnd⟩ := hc
  obtain ⟨a1, a2, a3, a4, a5⟩ :=
    buckets_fold_aux t.size hpos t.table 0 (HashTable.init K V (t.size * 2))
      (by rw [Nat.zero_add, hlen])
      rfl
      (by simp [HashTable.init])
      (by
        intro i hi e he
        rw [Nat.zero_add]
        exact hbc i e he)
      (by intro i hi; exact hnd i)
      (by
        intro i hi
        exact ⟨getD_replicate_nil _ _, getD_replicate_nil _ _⟩)
  refine ⟨?_, rfl, ?_, ?_⟩
  · rw [HashTable.rebuildTable_eq_addFold]
    show (addFold (t.table.flatMap HashNode.nodes) (HashTable.init K V (t.size * 2))).size = t.size * 2
    rw [a1]
    rfl
  · rw [HashTable.rebuildTable_eq_addFold]
    show (addFold (t.table.flatMap HashNode.nodes) (HashTable.init K V (t.size * 2))).table.length = t.size * 2
    rw [a3]
    simp [HashTable.init]
  · intro j hj
    rw [HashTable.rebuildTable_eq_addFold]
    show (addFold (t.table.flatMap HashNode.nodes) (HashTable.init K V (t.size * 2))).table.getD j [] = _
    rcases Nat.lt_or_ge j t.size with hjs | hjs
    · have h4 := (a4 j (by rw [hlen]; exact hjs)).1
      rw [Nat.zero_add] at h4
      rw [h4, Nat.mod_eq_of_lt hjs]
    · have hjms : j - t.size < t.size := by omega
      have h4 := (a4 (j - t.size) (by rw [hlen]; exact hjms)).2
      rw [Nat.zero_add, show j - t.size + t.size = j from by omega] at h4
      rw [h4, Nat.mod_eq_sub_mod hjs, Nat.mod_eq_of_lt hjms]

/-- On a clean table, every stored consistent entry is still retrievable by
`get`, with its value, after a rebuild. -/
theorem rebuildTable_get {K V : Type} [DecidableEq K] (hf : K → Int)
    (t : HashTable K V) (hc : CleanTable t) (k : K) (v : V) (d : V)
    (hmem : (⟨k, v, hf k⟩ : HashEntry K V) ∈ t.table.getD ((hf k).natAbs % t.size) []) :
    HashTable.get hf (t.rebuildTable) k d = v := by
  obtain ⟨h1, h2, h3, h4⟩ := rebuildTable_bucket_char t hc
  have hjlt : (hf k).natAbs % (t.size * 2) < t.size * 2 := by
    have := hc.pos
    exact Nat.mod_lt _ (by omega)
  have hidx : (t.rebuildTable).getTableIndex (hf k) = (hf k).natAbs % (t.size * 2) := by
    simp [HashTable.getTableIndex, h1]
  have hmod : ((hf k).natAbs % (t.size * 2)) % t.size = (hf k).natAbs % t.size :=
    Nat.mod_mod_of_dvd _ ⟨2, rfl⟩
  have hch := h4 _ hjlt
  rw [hmod] at hch
  have hmem2 : (⟨k, v, hf k⟩ : HashEntry K V) ∈
      (t.rebuildTable).table.getD ((hf k).natAbs % (t.size * 2)) [] := by
    rw [hch]
    exact mem_dropWhile_of_not _ _ _ hmem (by simp)
  have hnd2 : (((t.rebuildTable).table.getD ((hf k).natAbs % (t.size * 2)) []).map
      HashEntry.key).Nodup := by
    rw [hch]
    exact List.Nodup.sublist
      (List.Sublist.map HashEntry.key (List.dropWhile_sublist _)) (hc.chains_nodup _)
  have hfind : HashNode.find
      ((t.rebuildTable).table.getD ((hf k).natAbs % (t.size * 2)) []) k = some v :=
    HashNode.find_eq_of_mem_nodup _ _ hmem2 hnd2
  simp only [HashTable.get]
  rw [hidx, hfind]
  rfl

/-- A table characterised by a duplicate-free insertion sequence is
clean. -/
theorem CharTable.clean {K V : Type} (hf : K → Int) (s : Nat) (hs : 0 < s)
    (kvs : List (K × V)) (t : HashTable K V) (h : CharTable hf s kvs t)
    (hnd : (kvs.map Prod.fst).Nodup) : CleanTable t := by
  obtain ⟨h1, h2, h3, h4⟩ := h
  refine ⟨by rw [h1]; exact hs, by rw [h2, h1], ?_, ?_⟩
  · intro j e he
    rw [h4 j] at he
    rw [h1]
    exact (chainOf_mem hf s kvs j e he).2.2
  · intro j
    rw [h4 j, chainOf_keys]
    exact List.Nodup.sublist
      (List.Sublist.map Prod.fst (List.filter_sublist kvs)) hnd

/-- A pair of the insertion sequence yields an entry of its own
characterised bucket. -/
theorem mem_chainOf_self {K V : Type} (hf : K → Int) (s : Nat)
    (kvs : List (K × V)) (p : K × V) (hp : p ∈ kvs) :
    (⟨p.1, p.2, hf p.1⟩ : HashEntry K V) ∈ chainOf hf s kvs ((hf p.1).natAbs % s) := by
  simp only [chainOf, List.mem_map, List.mem_filter]
  exact ⟨p, ⟨hp, by simp⟩, rfl⟩

/-- C6: inserting a sequence of distinct keys into a fresh table of bucket
count `size`, where the final insertion is the first to drive the load
factor to 0.7 or above, (a) doubles the bucket count exactly once — every
proper prefix of the sequence leaves the bucket count at `size` and the
full sequence leaves it at `2 * size`; (b) leaves every previously
inserted key retrievable via `get` with its original value after the
rebuild; and (c) preserves relative insertion order inside every collision
chain: each bucket's keys form a subsequence of the insertion order,
because the rebuild replays the full-table iteration order into the new
table. -/
theorem resize_once_keeps_entries_in_order {K V : Type} [DecidableEq K]
    (hf : K → Int) (s : Nat) (kvs : List (K × V)) (d : V)
    (hs : 0 < s) (hnd : (kvs.map Prod.fst).Nodup)
    (hbefore : 10 * (kvs.length - 1) < 7 * s)
    (hcross : 7 * s ≤ 10 * kvs.length) (hne : kvs ≠ []) :
    (insertList hf (HashTable.init K V s) kvs).size = s * 2 ∧
    (∀ i, i < kvs.length →
      (insertList hf (HashTable.init K V s) (kvs.take i)).size = s) ∧
    (∀ p ∈ kvs, HashTable.get hf (insertList hf (HashTable.init K V s) kvs) p.1 d = p.2) ∧
    (∀ j, List.Sublist
        (((insertList hf (HashTable.init K V s) kvs).table.getD j []).map HashEntry.key)
        (kvs.map Prod.fst)) := by
  have htake : ∀ i, i < kvs.length →
      (insertList hf (HashTable.init K V s) (kvs.take i)).size = s := by
    intro i hi
    have hndt : ((kvs.take i).map Prod.fst).Nodup := by
      rw [List.map_take]
      exact List.Nodup.sublist (List.take_sublist i _) hnd
    have hlent : (kvs.take i).length = i := by
      rw [List.length_take]
      omega
    have hct : 10 * (kvs.take i).length < 7 * s := by
      rw [hlent]
      omega
    exact (insertList_char hf s hs (kvs.take i) hndt hct).1
  rcases List.eq_nil_or_concat kvs with hnil | ⟨kvs0, pl, hsplit⟩
  · exact absurd hnil hne
  rw [List.concat_eq_append] at hsplit
  subst hsplit
  rw [List.map_append, List.nodup_append] at hnd
  obtain ⟨hnd0, _, hdisj⟩ := hnd
  have hk : pl.1 ∉ kvs0.map Prod.fst := by
    intro hc
    exact hdisj hc (by simp)
  have hlen1 : (kvs0 ++ [pl]).length = kvs0.length + 1 := by
    rw [List.length_append, List.length_singleton]
  have hcross0 : 10 * kvs0.length < 7 * s := by
    rw [hlen1] at hbefore
    omega
  have char0 := insertList_char hf s hs kvs0 hnd0 hcross0
  obtain ⟨t2, hchar2, htf, heq⟩ := set_on_char hf s hs kvs0 pl.1 pl.2 _ char0 hk
  have htrue : 10 * ((kvs0.length : Int) + 1) ≥ 7 * (s : Int) := by
    rw [hlen1] at hcross
    omega
  have hfin : insertList hf (HashTable.init K V s) (kvs0 ++ [pl]) = t2.rebuildTable := by
    rw [insertList_append_single, heq, htf, decide_eq_true htrue]
    rfl
  have hndfull : ((kvs0 ++ [pl]).map Prod.fst).Nodup := by
    rw [List.map_append, List.nodup_append]
    exact ⟨hnd0, by simp, hdisj⟩
  have hclean2 : CleanTable t2 := CharTable.clean hf s hs _ t2 hchar2 hndfull
  obtain ⟨ht2size, ht2len, ht2count, ht2bk⟩ := hchar2
  obtain ⟨r1, r2, r3, r4⟩ := rebuildTable_bucket_char t2 hclean2
  refine ⟨?_, htake, ?_, ?_⟩
  · rw [hfin, r1, ht2size]
  · intro p hp
    rw [hfin]
    apply rebuildTable_get hf t2 hclean2 p.1 p.2 d
    rw [ht2size, ht2bk]
    exact mem_chainOf_self hf s (kvs0 ++ [pl]) p hp
  · intro j
    rw [hfin]
    rcases Nat.lt_or_ge j (t2.size * 2) with hj | hj
    · rw [r4 j hj, ht2bk]
      refine List.Sublist.trans
        (List.Sublist.map HashEntry.key (List.dropWhile_sublist _)) ?_
      rw [chainOf_keys]
      exact List.Sublist.map Prod.fst (List.filter_sublist _)
    · rw [List.getD_eq_default _ _ (by rw [r3]; exact hj)]
      simp

/-- C6 witness: size 2, inserting keys 0 then 1; the second insertion
crosses the threshold, the table doubles to 4 buckets, both keys stay
retrievable, and every bucket's keys follow insertion order. -/
theorem resize_once_keeps_entries_in_order_witness :
    (insertList id (HashTable.init Int Nat 2) [(0, 10), (1, 11)]).size = 2 * 2 ∧
    (∀ i, i < ([((0 : Int), (10 : Nat)), (1, 11)]).length →
      (insertList id (HashTable.init Int Nat 2) ([((0 : Int), (10 : Nat)), (1, 11)].take i)).size = 2) ∧
    (∀ p ∈ [((0 : Int), (10 : Nat)), (1, 11)],
      HashTable.get id (insertList id (HashTable.init Int Nat 2) [(0, 10), (1, 11)]) p.1 999 = p.2) ∧
    (∀ j, List.Sublist
        (((insertList id (HashTable.init Int Nat 2) [(0, 10), (1, 11)]).table.getD j []).map HashEntry.key)
        ([((0 : Int), (10 : Nat)), (1, 11)].map Prod.fst)) :=
  resize_once_keeps_entries_in_order id 2 [(0, 10), (1, 11)] 999
    (by decide) (by decide) (by decide) (by decide) (by decide)

/-! ## One `set` call in detail (update in place vs append) -/

/-- The table state inside `set` right after `_add` has run and `count`
has been adjusted (line 136), before the fullness check of lines 140-141. -/
def setMid {K V : Type} [DecidableEq K] (hf : K → Int) (t : HashTable K V)
    (k : K) (v : V) : HashTable K V :=
  { (t.add ⟨k, v, hf k⟩ []).2 with
    count := ((t.add ⟨k, v, hf k⟩ []).2).count + ((t.add ⟨k, v, hf k⟩ []).1 : Int) }

/-- `set` is that state, rebuilt exactly when the fullness check fires. -/
theorem HashTable.set_eq_mid {K V : Type} [DecidableEq K] (hf : K → Int)
    (t : HashTable K V) (k : K) (v : V) :
    HashTable.set hf t k v =
      if (setMid hf t k v).isTooFull then (setMid hf t k v).rebuildTable
      else setMid hf t k v := rfl

/-- `setMid` bookkeeping. -/
theorem setMid_facts {K V : Type} [DecidableEq K] (hf : K → Int)
    (t : HashTable K V) (k : K) (v : V) :
    (setMid hf t k v).size = t.size ∧
    (setMid hf t k v).count = t.count + ((t.add ⟨k, v, hf k⟩ []).1 : Int) ∧
    (setMid hf t k v).table = ((t.add ⟨k, v, hf k⟩ []).2).table := by
  refine ⟨?_, ?_, rfl⟩
  · show ((t.add ⟨k, v, hf k⟩ []).2).size = t.size
    exact HashTable.add_size t _ _
  · show ((t.add ⟨k, v, hf k⟩ []).2).count + ((t.add ⟨k, v, hf k⟩ []).1 : Int)
        = t.count + ((t.add ⟨k, v, hf k⟩ []).1 : Int)
    rw [HashTable.add_count]

/-- A `set` whose key already sits in its bucket's chain: delta 0, count
unchanged, bucket keys unchanged (value overwritten in place), and `get`
then yields the new value. -/
theorem set_present_case {K V : Type} [DecidableEq K] (hf : K → Int)
    (t : HashTable K V) (k : K) (v2 d : V)
    (hlen : t.table.length = t.size) (hs : 0 < t.size)
    (hinv : 10 * t.count < 7 * (t.size : Int))
    (hmem : k ∈ (t.table.getD (t.getTableIndex (hf k)) []).map HashEntry.key) :
    (t.add ⟨k, v2, hf k⟩ []).1 = 0 ∧
    (HashTable.set hf t k v2).count = t.count ∧
    ((HashTable.set hf t k v2).table.getD (t.getTableIndex (hf k)) []).map HashEntry.key
      = (t.table.getD (t.getTableIndex (hf k)) []).map HashEntry.key ∧
    HashTable.get hf (HashTable.set hf t k v2) k d = v2 := by
  have hidxlt : t.getTableIndex (hf k) < t.table.length := by
    rw [hlen]
    exact Nat.mod_lt _ hs
  cases hb : t.table.getD (t.getTableIndex (hf k)) [] with
  | nil =>
    rw [hb] at hmem
    simp at hmem
  | cons e0 rest =>
    rw [hb] at hmem
    have hadd := HashTable.add_eq_nonempty t ⟨k, v2, hf k⟩ [] e0 rest hb
    have hdelta : (t.add ⟨k, v2, hf k⟩ []).1 = 0 := by
      rw [hadd]
      exact HashNode.add_of_mem_snd _ _ _ hmem
    have hnf : ¬((setMid hf t k v2).isTooFull = true) := by
      simp only [HashTable.isTooFull, decide_eq_true_eq, ge_iff_le, not_le]
      rw [(setMid_facts hf t k v2).2.1, hdelta, (setMid_facts hf t k v2).1]
      push_cast
      omega
    have hset : HashTable.set hf t k v2 = setMid hf t k v2 := by
      rw [HashTable.set_eq_mid, if_neg hnf]
    have hmidb : (setMid hf t k v2).table.getD (t.getTableIndex (hf k)) []
        = (HashNode.add (e0 :: rest) ⟨k, v2, hf k⟩ []).1 := by
      rw [(setMid_facts hf t k v2).2.2]
      simp only [hadd]
      rw [getD_set_self _ _ _ _ hidxlt]
    refine ⟨hdelta, ?_, ?_, ?_⟩
    · rw [HashTable.set_count, hdelta]
      simp
    · rw [hset, hmidb, HashNode.add_fst_keys, if_pos hmem]
    · have hsz2 : (HashTable.set hf t k v2).size = t.size := by
        rw [hset]
        exact (setMid_facts hf t k v2).1
      have hidx2 : (HashTable.set hf t k v2).getTableIndex (hf k)
          = t.getTableIndex (hf k) := by
        simp [HashTable.getTableIndex, hsz2]
      have hfind : HashNode.find ((HashNode.add (e0 :: rest) ⟨k, v2, hf k⟩ []).1) k
          = some v2 := HashNode.find_add _ _ _
      simp only [HashTable.get]
      rw [hidx2, hset, hmidb, hfind]
      rfl

/-- A `set` whose key is absent from its bucket's chain: delta 1, the node
appended at the true tail, count one higher; `get` then yields the value,
both when no rebuild fires and (through the rebuild characterisation) when
the table was clean and the rebuild fires. -/
theorem set_absent_case {K V : Type} [DecidableEq K] (hf : K → Int)
    (t : HashTable K V) (k : K) (v2 d : V)
    (hlen : t.table.length = t.size) (hs : 0 < t.size)
    (hnmem : k ∉ (t.table.getD (t.getTableIndex (hf k)) []).map HashEntry.key) :
    (t.add ⟨k, v2, hf k⟩ []).1 = 1 ∧
    ((t.add ⟨k, v2, hf k⟩ []).2).table.getD (t.getTableIndex (hf k)) []
      = t.table.getD (t.getTableIndex (hf k)) [] ++ [⟨k, v2, hf k⟩] ∧
    (HashTable.set hf t k v2).count = t.count + 1 ∧
    (¬((setMid hf t k v2).isTooFull = true) →
      HashTable.get hf (HashTable.set hf t k v2) k d = v2) ∧
    (CleanTable t → HashTable.get hf (HashTable.set hf t k v2) k d = v2) := by
  have hidxlt : t.getTableIndex (hf k) < t.table.length := by
    rw [hlen]
    exact Nat.mod_lt _ hs
  have hadd := HashTable.add_of_not_mem_bucket t ⟨k, v2, hf k⟩ [] hnmem
  have hdelta : (t.add ⟨k, v2, hf k⟩ []).1 = 1 := by rw [hadd]
  have hmid : ((t.add ⟨k, v2, hf k⟩ []).2).table.getD (t.getTableIndex (hf k)) []
      = t.table.getD (t.getTableIndex (hf k)) [] ++ [⟨k, v2, hf k⟩] := by
    simp only [hadd]
    rw [getD_set_self _ _ _ _ hidxlt]
  have hnorb : ¬((setMid hf t k v2).isTooFull = true) →
      HashTable.get hf (HashTable.set hf t k v2) k d = v2 := by
    intro hnf
    have hset : HashTable.set hf t k v2 = setMid hf t k v2 := by
      rw [HashTable.set_eq_mid, if_neg hnf]
    have hmidb : (setMid hf t k v2).table.getD (t.getTableIndex (hf k)) []
        = t.table.getD (t.getTableIndex (hf k)) [] ++ [⟨k, v2, hf k⟩] := by
      rw [(setMid_facts hf t k v2).2.2]
      exact hmid
    have hcl : (HashNode.add (t.table.getD (t.getTableIndex (hf k)) [])
        ⟨k, v2, hf k⟩ []).1
        = t.table.getD (t.getTableIndex (hf k)) [] ++ [⟨k, v2, hf k⟩] := by
      rw [HashNode.add_of_not_mem _ _ _ hnmem]
    have hfind : HashNode.find
        (t.table.getD (t.getTableIndex (hf k)) [] ++ [⟨k, v2, hf k⟩]) k = some v2 := by
      rw [← hcl]
      exact HashNode.find_add _ _ _
    have hsz2 : (HashTable.set hf t k v2).size = t.size := by
      rw [hset]
      exact (setMid_facts hf t k v2).1
    have hidx2 : (HashTable.set hf t k v2).getTableIndex (hf k)
        = t.getTableIndex (hf k) := by
      simp [HashTable.getTableIndex, hsz2]
    simp only [HashTable.get]
    rw [hidx2, hset, hmidb, hfind]
    rfl
  refine ⟨hdelta, hmid, ?_, hnorb, ?_⟩
  · rw [HashTable.set_count, hdelta]
    push_cast
    ring
  · intro hclean
    by_cases htf : (setMid hf t k v2).isTooFull = true
    · have hsetR : HashTable.set hf t k v2 = (setMid hf t k v2).rebuildTable := by
        rw [HashTable.set_eq_mid, if_pos htf]
      have hclean2 : CleanTable (setMid hf t k v2) := by
        refine ⟨?_, ?_, ?_, ?_⟩
        · rw [(setMid_facts hf t k v2).1]
          exact hclean.pos
        · rw [(setMid_facts hf t k v2).2.2, (setMid_facts hf t k v2).1]
          simp only [hadd]
          rw [List.length_set]
          exact hlen
        · intro j e he
          rw [(setMid_facts hf t k v2).2.2] at he
          simp only [hadd] at he
          rw [(setMid_facts hf t k v2).1]
          by_cases hji : j = t.getTableIndex (hf k)
          · subst hji
            rw [getD_set_self _ _ _ _ hidxlt] at he
            rcases List.mem_append.1 he with h | h
            · exact hclean.bucket_consistent _ e h
            · rw [List.mem_singleton.1 h]
              simp [HashTable.getTableIndex]
          · rw [getD_set_ne _ _ _ _ _ (fun hc => hji hc.symm)] at he
            exact hclean.bucket_consistent _ e he
        · intro j
          rw [(setMid_facts hf t k v2).2.2]
          simp only [hadd]
          by_cases hji : j = t.getTableIndex (hf k)
          · subst hji
            rw [getD_set_self _ _ _ _ hidxlt, List.map_append, List.nodup_append]
            refine ⟨hclean.chains_nodup _, by simp, ?_⟩
            intro a ha hb
            rw [List.map_singleton] at hb
            rw [List.mem_singleton.1 hb] at ha
            exact hnmem ha
          · rw [getD_set_ne _ _ _ _ _ (fun hc => hji hc.symm)]
            exact hclean.chains_nodup _
      have hmem2 : (⟨k, v2, hf k⟩ : HashEntry K V) ∈
          (setMid hf t k v2).table.getD ((hf k).natAbs % (setMid hf t k v2).size) [] := by
        rw [(setMid_facts hf t k v2).1]
        show (⟨k, v2, hf k⟩ : HashEntry K V) ∈
          (setMid hf t k v2).table.getD (t.getTableIndex (hf k)) []
        rw [(setMid_facts hf t k v2).2.2, hmid]
        exact List.mem_append_right _ (List.mem_cons_self _ _)
      rw [hsetR]
      exact rebuildTable_get hf (setMid hf t k v2) hclean2 k v2 d hmem2
    · exact hnorb htf

/-- Combined description of one `set` call: re-`set`-ting a stored key
overwrites the matching node's value in place — growth delta 0 even when
the match is mid-chain, entry count unchanged, the bucket's key sequence
unchanged — while `set` of a fresh key appends the new node at the true
tail of its bucket's chain, signals delta 1 and increments the count; a
subsequent `get` of the key returns the new value for the present-key
case always, and for the fresh-key case when this insertion stays below
the threshold or the table is clean.  The cleanliness hypothesis on the
last clause is essential: `set_fresh_key_value_lost_after_rebuild` below
shows a reachable unclean state on which that clause is false. -/
theorem set_update_semantics {K V : Type} [DecidableEq K] (hf : K → Int)
    (t : HashTable K V) (k : K) (v2 d : V)
    (hlen : t.table.length = t.size) (hs : 0 < t.size)
    (hinv : 10 * t.count < 7 * (t.size : Int)) :
    (k ∈ (t.table.getD (t.getTableIndex (hf k)) []).map HashEntry.key →
      (t.add ⟨k, v2, hf k⟩ []).1 = 0 ∧
      (HashTable.set hf t k v2).count = t.count ∧
      ((HashTable.set hf t k v2).table.getD (t.getTableIndex (hf k)) []).map HashEntry.key
        = (t.table.getD (t.getTableIndex (hf k)) []).map HashEntry.key ∧
      HashTable.get hf (HashTable.set hf t k v2) k d = v2) ∧
    (k ∉ (t.table.getD (t.getTableIndex (hf k)) []).map HashEntry.key →
      (t.add ⟨k, v2, hf k⟩ []).1 = 1 ∧
      ((t.add ⟨k, v2, hf k⟩ []).2).table.getD (t.getTableIndex (hf k)) []
        = t.table.getD (t.getTableIndex (hf k)) [] ++ [⟨k, v2, hf k⟩] ∧
      (HashTable.set hf t k v2).count = t.count + 1 ∧
      (10 * (t.count + 1) < 7 * (t.size : Int) →
        HashTable.get hf (HashTable.set hf t k v2) k d = v2) ∧
      (CleanTable t → HashTable.get hf (HashTable.set hf t k v2) k d = v2)) := by
  constructor
  · intro hmem
    exact set_present_case hf t k v2 d hlen hs hinv hmem
  · intro hnmem
    obtain ⟨h1, h2, h3, h4, h5⟩ := set_absent_case hf t k v2 d hlen hs hnmem
    refine ⟨h1, h2, h3, ?_, h5⟩
    intro hlt
    apply h4
    simp only [HashTable.isTooFull, decide_eq_true_eq, ge_iff_le, not_le]
    rw [(setMid_facts hf t k v2).2.1, h1, (setMid_facts hf t k v2).1]
    push_cast
    omega

/-- Concrete instance of `set_update_semantics`: re-setting key 10 (stored
mid-chain in bucket 0 of a size-10 table) keeps the count and makes
`get 10` return the new value. -/
theorem set_update_semantics_witness :
    (HashTable.set id exampleTwoChain 10 555).count = exampleTwoChain.count ∧
    HashTable.get id (HashTable.set id exampleTwoChain 10 555) 10 999 = 555 := by
  have h := (set_update_semantics id exampleTwoChain 10 555 999 (by decide) (by decide)
    (by decide)).1 (by decide)
  exact ⟨h.2.1, h.2.2.2⟩

/-! ## A reachable state on which a fresh-key `set` loses its value -/

/-- Table a finished `delete` leaves behind (the supplied default stands in
for the never-occurring divergent case, in which no state exists). -/
def DeleteOutcome.stateD {K V : Type} (o : DeleteOutcome K V)
    (d : HashTable K V) : HashTable K V :=
  match o with
  | .diverges => d
  | .finished _ t => t

/-- `HashTable(3)` after `set(3,10); set(6,20); set(1,30)` — the third
`set` rebuilds to size 6, leaving a stale copy of the key-6 node in bucket
3's chain (behind node 3) while its own slot is bucket 0. -/
def exampleStaleTrace1 : HashTable Int Nat :=
  insertList id (HashTable.init Int Nat 3) [(3, 10), (6, 20), (1, 30)]

/-- … after `delete(6)`: the head match removes the node from bucket 0,
but the stale copy behind node 3 survives. -/
def exampleStaleTrace2 : HashTable Int Nat :=
  (HashTable.delete id exampleStaleTrace1 6).stateD exampleStaleTrace1

/-- … after `set(7,40); set(2,50)`: key 6 is absent (its bucket is empty),
count 4 of size 6. -/
def exampleStaleTrace3 : HashTable Int Nat :=
  insertList id exampleStaleTrace2 [(7, 40), (2, 50)]

/-- … after `set(6,99)`: the fresh node is planted in bucket 0 with delta
1, count 5 drives the load factor to 5/6 ≥ 0.7, and the rebuild to size 12
replays the stale key-6 node (value 20) after the fresh one — the in-place
overwrite writes the old value 20 over the fresh 99. -/
def exampleStaleTrace4 : HashTable Int Nat :=
  HashTable.set id exampleStaleTrace3 6 99

/-- C7: the claim states that for a key not present, `set(k, v2)` appends
the new node with delta 1 and that `get(k)` afterwards returns `v2`.  The
code contradicts the last part on a state reachable through the public
interface.  In `HashTable(3)` insert keys 3, 6, 1 (the resize leaves a
stale key-6 node in bucket 3's chain), `delete(6)` (a head match, so the
stale copy survives), insert 7 and 2, then `set(6, 99)` on the now-absent
key 6: the fresh node is appended with delta 1 and the count grows to 5,
but the resize this triggers replays the stale key-6 node (old value 20)
after the fresh one and its in-place overwrite restores the old value —
`get(6)` then returns 20, not 99.  The root cause is the same
stale-`next_node` rebuild slip as in C4/C9; the spec's §8 promise that a
`set` key is then retrievable with its new value is the intent. -/
theorem set_fresh_key_value_lost_after_rebuild :
    (HashTable.delete id exampleStaleTrace1 6).ret = some 20 ∧
    HashTable.get id exampleStaleTrace3 6 999 = 999 ∧
    (exampleStaleTrace3.add ⟨6, 99, 6⟩ []).1 = 1 ∧
    exampleStaleTrace4.count = 5 ∧
    exampleStaleTrace4.size = 12 ∧
    HashTable.get id exampleStaleTrace4 6 999 = 20 ∧
    ¬(HashTable.get id exampleStaleTrace4 6 999 = 99) := by
  decide
